import Mathlib

/-! Blackjack console: round engine.

A shallow embedding of the round engine of the console Blackjack game
(`card.cpp`, `deck.cpp`, `player.cpp`, `dealer.cpp`, `game.cpp`) together with
theorems about it.

Conventions of the embedding.

* A `std::vector<Card>` is a `List Card` in vector order: index 0 is the head
  and `back()` is the last element.
* C++ `int` values are `Int`.  Card values and scores of hands dealt from one
  deck stay far inside the `int` range.  The statistics counters can be set to
  any `int` by the statistics file, so their increments are reduced to the 32
  bits of an `int` by `wrapInt32`.
* The `double` member `winRate_` is a binary64 number: an integer mantissa
  times a power of two, with every operation rounded to nearest, ties to even.
* A thrown `std::runtime_error` is an `Except` error returned next to the
  state the objects are left in when the exception leaves the function.
* Console output (colours, table drawing, messages) carries no state of the
  engine and is left out.
-/

namespace Blackjack

/-! ## card.h / card.cpp -/

/-- The four suits, in the order of `enum class Suit`. -/
inductive Suit where
  | Hearts
  | Diamonds
  | Clubs
  | Spades
  deriving DecidableEq, Repr

/-- The thirteen ranks, in the order of `enum class Rank` (`Two = 2`). -/
inductive Rank where
  | Two
  | Three
  | Four
  | Five
  | Six
  | Seven
  | Eight
  | Nine
  | Ten
  | Jack
  | Queen
  | King
  | Ace
  deriving DecidableEq, Repr

/-- The enumerator value `static_cast<int>(suit)`. -/
def Suit.toInt : Suit → Int
  | .Hearts => 0
  | .Diamonds => 1
  | .Clubs => 2
  | .Spades => 3

/-- The enumerator value `static_cast<int>(rank)`: `Two = 2`, then consecutive. -/
def Rank.toInt : Rank → Int
  | .Two => 2
  | .Three => 3
  | .Four => 4
  | .Five => 5
  | .Six => 6
  | .Seven => 7
  | .Eight => 8
  | .Nine => 9
  | .Ten => 10
  | .Jack => 11
  | .Queen => 12
  | .King => 13
  | .Ace => 14

/-- A playing card: `Card(Suit s, Rank r)`. -/
structure Card where
  suit : Suit
  rank : Rank
  deriving DecidableEq, Repr

/-- The function `Card::getValue`: face cards 10, Ace 1, pip cards their rank. -/
def Card.getValue (c : Card) : Int :=
  if c.rank = Rank.Jack ∨ c.rank = Rank.Queen ∨ c.rank = Rank.King then 10
  else if c.rank = Rank.Ace then 1
  else c.rank.toInt

/-- The function `Card::isAce`. -/
def Card.isAce (c : Card) : Bool :=
  decide (c.rank = Rank.Ace)

/-! ## deck.h / deck.cpp -/

/-- The error thrown by the engine: `std::runtime_error("Cannot draw card: deck is empty!")`. -/
inductive GameError where
  | deckEmpty
  deriving DecidableEq, Repr

deriving instance DecidableEq for Except

/-- A deck: the vector `cards_`, whose last element is the top card. -/
structure Deck where
  cards : List Card
  deriving DecidableEq, Repr

/-- The suits in the order the outer loop of `Deck::Deck` visits them. -/
def allSuits : List Suit :=
  [Suit.Hearts, Suit.Diamonds, Suit.Clubs, Suit.Spades]

/-- The ranks in the order the inner loop of `Deck::Deck` visits them. -/
def allRanks : List Rank :=
  [Rank.Two, Rank.Three, Rank.Four, Rank.Five, Rank.Six, Rank.Seven, Rank.Eight,
   Rank.Nine, Rank.Ten, Rank.Jack, Rank.Queen, Rank.King, Rank.Ace]

/-- The constructor `Deck::Deck`: for each suit, for each rank, `emplace_back`. -/
def Deck.new : Deck :=
  ⟨allSuits.flatMap (fun s => allRanks.map (fun r => Card.mk s r))⟩

/-- The function `Deck::isEmpty`. -/
def Deck.isEmpty (d : Deck) : Bool :=
  d.cards.isEmpty

/-- The function `Deck::drawCard`: throws on an empty deck, otherwise returns
`back()` after `pop_back()`.  The second component is the deck afterwards. -/
def Deck.drawCard (d : Deck) : Except GameError Card × Deck :=
  match d.cards.getLast? with
  | none => (Except.error GameError.deckEmpty, d)
  | some topCard => (Except.ok topCard, ⟨d.cards.dropLast⟩)

/-! ## Machine numbers: `int` and `double` -/

/-- The value a 32-bit `int` holds for the mathematical result `x`: the
representative of `x` modulo `2^32` between `INT_MIN = -2147483648` and
`INT_MAX = 2147483647`.  Inside that range it is `x`; the increment of
`INT_MAX` is `INT_MIN`, as on the two's-complement targets of the program. -/
def wrapInt32 (x : Int) : Int :=
  (x + 2147483648) % 4294967296 - 2147483648

/-- A finite binary64 value `mant × 2^exp`.  A rounded result (`Double.round`,
and so `/` and `*`) is either zero, written `⟨0, 0⟩`, or has
`2^52 ≤ |mant| < 2^53`, so that equal rounded values are equal structures; a
converted `int` keeps the integer as its mantissa and is only an operand.  The
exponent range, infinities, NaN and the sign of zero are left out: the values
computed by the program have magnitudes between `2^-31` and `100 × 2^31`. -/
structure Double where
  mant : Int
  exp : Int
  deriving DecidableEq, Repr

/-- The value `0.0`. -/
def Double.zero : Double := ⟨0, 0⟩

/-- The rational number a `Double` stands for. -/
def Double.toRat (x : Double) : ℚ := (x.mant : ℚ) * (2 : ℚ) ^ x.exp

/-- The number of binary digits of `n`, by halving at most `fuel` times. -/
def bitLengthAux : Nat → Nat → Nat
  | 0, _ => 0
  | fuel + 1, n => if n = 0 then 0 else bitLengthAux fuel (n / 2) + 1

/-- The number of binary digits of `n`: 0 for 0, and `k` when `2^(k-1) ≤ n < 2^k`. -/
def bitLength (n : Nat) : Nat := bitLengthAux n n

/-- The quotient `n / d` rounded to the nearest natural number, a tie going to
the even neighbour. -/
def roundHalfEven (n d : Nat) : Nat :=
  let q := n / d
  let r := n % d
  if 2 * r < d then q
  else if d < 2 * r then q + 1
  else if q % 2 = 0 then q else q + 1

/-- The exponent of the leading binary digit of the positive fraction `n / d`:
the integer `k` with `2^k ≤ n / d < 2^(k+1)`. -/
def floorLog2 (n d : Nat) : Int :=
  let k : Int := (bitLength n : Int) - (bitLength d : Int)
  if d * 2 ^ k.toNat ≤ n * 2 ^ (-k).toNat then k else k - 1

/-- The positive fraction `n / d` rounded to 53 significant binary digits,
nearest with ties to even: the pair `(m, e)` stands for `m × 2^e`, with
`2^52 ≤ m < 2^53`. -/
def roundPos (n d : Nat) : Nat × Int :=
  let e := floorLog2 n d - 52
  let m := roundHalfEven (n * 2 ^ (-e).toNat) (d * 2 ^ e.toNat)
  if m = 2 ^ 53 then (2 ^ 52, e + 1) else (m, e)

/-- The binary64 value nearest to `num / den × 2^e`, ties to even. -/
def Double.round (num : Int) (den : Nat) (e : Int) : Double :=
  if num = 0 then Double.zero
  else
    let r := roundPos (num.natAbs * 2 ^ e.toNat) (den * 2 ^ (-e).toNat)
    ⟨if num < 0 then -(r.1 : Int) else (r.1 : Int), r.2⟩

/-- The conversion `static_cast<double>(n)` of an `int`, which is exact. -/
def Double.ofInt (n : Int) : Double := ⟨n, 0⟩

/-- The operator `/` on `double`, for a divisor that is not zero: the exact
quotient, rounded. -/
def Double.div (a b : Double) : Double :=
  Double.round (a.mant * b.mant.sign) b.mant.natAbs (a.exp - b.exp)

/-- The operator `*` on `double`: the exact product, rounded. -/
def Double.mul (a b : Double) : Double :=
  Double.round (a.mant * b.mant) 1 (a.exp + b.exp)

/-! ## player.h / player.cpp -/

/-- The actions of `enum class PlayerAction`. -/
inductive PlayerAction where
  | Hit
  | Stand
  | DoubleDown
  | Split
  deriving DecidableEq, Repr

/-- The data members of `class Player`. -/
structure Player where
  name : String
  hand : List Card
  gamesPlayed : Int
  gamesWon : Int
  gamesLost : Int
  gamesPushed : Int
  maxScore : Int
  winRate : Double
  deriving DecidableEq

/-- The constructor `Player::Player(playerName)`: empty hand, zero statistics. -/
def Player.new (playerName : String) : Player :=
  { name := playerName, hand := [], gamesPlayed := 0, gamesWon := 0, gamesLost := 0,
    gamesPushed := 0, maxScore := 0, winRate := Double.zero }

/-- The function `Player::takeCard`: draw, then `push_back` on the hand.  When
the draw throws, the hand has not been touched. -/
def Player.takeCard (p : Player) (deck : Deck) : Except GameError Unit × Player × Deck :=
  match deck.drawCard with
  | (Except.error e, deck1) => (Except.error e, p, deck1)
  | (Except.ok newCard, deck1) => (Except.ok (), { p with hand := p.hand ++ [newCard] }, deck1)

/-- The first loop of `Player::calculateScore`, one card: the pair is
`(score, aceCount)`. -/
def scoreStep (acc : Int × Nat) (card : Card) : Int × Nat :=
  if card.isAce then (acc.1 + 1, acc.2 + 1) else (acc.1 + card.getValue, acc.2)

/-- The second loop of `Player::calculateScore`: `aceCount` rounds of
`if (score + 10 <= 21) score += 10`. -/
def promoteAces : Nat → Int → Int
  | 0, score => score
  | n + 1, score => promoteAces n (if score + 10 ≤ 21 then score + 10 else score)

/-- The score of a hand, as `Player::calculateScore` computes it from `hand_`. -/
def handScore (hand : List Card) : Int :=
  let acc := hand.foldl scoreStep (0, 0)
  promoteAces acc.2 acc.1

/-- The function `Player::calculateScore`. -/
def Player.calculateScore (p : Player) : Int :=
  handScore p.hand

/-- The function `Player::isBusted`. -/
def Player.isBusted (p : Player) : Bool :=
  decide (p.calculateScore > 21)

/-- The function `Player::canSplit`: exactly two cards, of equal value. -/
def Player.canSplit (p : Player) : Bool :=
  match p.hand with
  | [first, second] => decide (first.getValue = second.getValue)
  | _ => false

/-- The function `Player::canDoubleDown`: exactly two cards. -/
def Player.canDoubleDown (p : Player) : Bool :=
  decide (p.hand.length = 2)

/-- The function `Player::convertChoiceToAction`, with `ACTION_HIT = 1`,
`ACTION_STAND = 2`, `ACTION_DOUBLE_DOWN = 3`, `ACTION_SPLIT = 4`. -/
def Player.convertChoiceToAction (p : Player) (choice : Int) : PlayerAction :=
  if choice = 1 then PlayerAction.Hit
  else if choice = 2 then PlayerAction.Stand
  else if choice = 3 then (if p.canDoubleDown then PlayerAction.DoubleDown else PlayerAction.Hit)
  else if choice = 4 then (if p.canSplit then PlayerAction.Split else PlayerAction.Hit)
  else PlayerAction.Hit

/-- The function `Player::getPlayerAction`.  The console is an action source
`src`: the integer read by the `k`-th call of `getPlayerChoice` is `src k`, and
`pos` counts the reads made so far.  A busted player is not asked. -/
def Player.getPlayerAction (p : Player) (src : Nat → Int) (pos : Nat) : PlayerAction × Nat :=
  if p.isBusted then (PlayerAction.Stand, pos)
  else (p.convertChoiceToAction (src pos), pos + 1)

/-- The function `Player::clearHand`. -/
def Player.clearHand (p : Player) : Player :=
  { p with hand := [] }

/-- The function `Player::setHand`. -/
def Player.setHand (p : Player) (newHand : List Card) : Player :=
  { p with hand := newHand }

/-- The function `Player::splitHand`: when `canSplit()`, move `hand_.back()` to
the returned hand and draw one card into the current hand. -/
def Player.splitHand (p : Player) (deck : Deck) : Except GameError (List Card) × Player × Deck :=
  if p.canSplit then
    let secondHand := p.hand.getLast?.toList
    let popped : Player := { p with hand := p.hand.dropLast }
    match popped.takeCard deck with
    | (Except.error e, p1, deck1) => (Except.error e, p1, deck1)
    | (Except.ok (), p1, deck1) => (Except.ok secondHand, p1, deck1)
  else (Except.ok [], p, deck)

/-- The expression `static_cast<double>(gamesWon_) / gamesPlayed_ * 100` of
`Player::updateWinRate`: both operands of `/` and the factor 100 are converted
to `double`, and the quotient and the product are each rounded to binary64
(evaluation in the precision of the type, as on x86-64 and AArch64). -/
def winRateExpr (gamesWon gamesPlayed : Int) : Double :=
  Double.mul (Double.div (Double.ofInt gamesWon) (Double.ofInt gamesPlayed)) (Double.ofInt 100)

/-- The private function `Player::updateWinRate`. -/
def Player.updateWinRate (p : Player) : Player :=
  { p with winRate := if p.gamesPlayed > 0 then winRateExpr p.gamesWon p.gamesPlayed else Double.zero }

/-- The function `Player::recordWin`: `gamesPlayed_++; gamesWon_++; updateWinRate()`. -/
def Player.recordWin (p : Player) : Player :=
  Player.updateWinRate
    { p with gamesPlayed := wrapInt32 (p.gamesPlayed + 1), gamesWon := wrapInt32 (p.gamesWon + 1) }

/-- The function `Player::recordLoss`: `gamesPlayed_++; gamesLost_++; updateWinRate()`. -/
def Player.recordLoss (p : Player) : Player :=
  Player.updateWinRate
    { p with gamesPlayed := wrapInt32 (p.gamesPlayed + 1), gamesLost := wrapInt32 (p.gamesLost + 1) }

/-- The function `Player::recordPush`: `gamesPlayed_++; gamesPushed_++; updateWinRate()`. -/
def Player.recordPush (p : Player) : Player :=
  Player.updateWinRate
    { p with gamesPlayed := wrapInt32 (p.gamesPlayed + 1), gamesPushed := wrapInt32 (p.gamesPushed + 1) }

/-- The function `Player::updateMaxScore`. -/
def Player.updateMaxScore (p : Player) (score : Int) : Player :=
  if score > p.maxScore then { p with maxScore := score } else p

/-- The setter `Player::setGamesPlayed`. -/
def Player.setGamesPlayed (p : Player) (value : Int) : Player :=
  Player.updateWinRate { p with gamesPlayed := value }

/-- The setter `Player::setGamesWon`. -/
def Player.setGamesWon (p : Player) (value : Int) : Player :=
  Player.updateWinRate { p with gamesWon := value }

/-- The setter `Player::setGamesLost`. -/
def Player.setGamesLost (p : Player) (value : Int) : Player :=
  Player.updateWinRate { p with gamesLost := value }

/-- The setter `Player::setGamesPushed`. -/
def Player.setGamesPushed (p : Player) (value : Int) : Player :=
  Player.updateWinRate { p with gamesPushed := value }

/-- The setter `Player::setGamesScore`: sets `maxScore_`, no win-rate update. -/
def Player.setGamesScore (p : Player) (value : Int) : Player :=
  { p with maxScore := value }

/-! ## dealer.h / dealer.cpp -/

/-- The strategies of `enum class DealerStrategy`. -/
inductive DealerStrategy where
  | Standard
  | Aggressive
  | Cautious
  deriving DecidableEq, Repr

/-- The class `Dealer`: a `Player` with a strategy. -/
structure Dealer extends Player where
  strategy : DealerStrategy
  deriving DecidableEq

/-- The constructor `Dealer::Dealer`: named "Dealer", standard strategy. -/
def Dealer.new : Dealer :=
  { toPlayer := Player.new "Dealer", strategy := DealerStrategy.Standard }

/-- The function `Dealer::setStrategy`. -/
def Dealer.setStrategy (d : Dealer) (newStrategy : DealerStrategy) : Dealer :=
  { d with strategy := newStrategy }

/-- The inherited `takeCard` called on a dealer. -/
def Dealer.takeCard (d : Dealer) (deck : Deck) : Except GameError Unit × Dealer × Deck :=
  match d.toPlayer.takeCard deck with
  | (r, p1, deck1) => (r, { d with toPlayer := p1 }, deck1)

/-- The inherited `clearHand` called on a dealer. -/
def Dealer.clearHand (d : Dealer) : Dealer :=
  { d with toPlayer := d.toPlayer.clearHand }

/-- The function `Dealer::mustDrawCard`. -/
def Dealer.mustDrawCard (d : Dealer) : Bool :=
  if d.isBusted then false
  else
    let score := d.calculateScore
    match d.strategy with
    | DealerStrategy.Standard => decide (score ≤ 16)
    | DealerStrategy.Aggressive => decide (score ≤ 17)
    | DealerStrategy.Cautious => decide (score ≤ 15)

/-- The loop `while (dealer_.mustDrawCard() && !dealer_.isBusted())
dealer_.takeCard(deck_)` of `Game::dealerTurn`, run for at most `fuel` tests
of the condition; `none` means the fuel ran out before the loop was left. -/
def dealerLoop : Nat → Dealer → Deck → Option (Except GameError Unit × Dealer × Deck)
  | 0, _, _ => none
  | fuel + 1, d, deck =>
    if d.mustDrawCard && !d.isBusted then
      match d.takeCard deck with
      | (Except.error e, d1, deck1) => some (Except.error e, d1, deck1)
      | (Except.ok (), d1, deck1) => dealerLoop fuel d1 deck1
    else some (Except.ok (), d, deck)

/-- The loop of `Dealer::playTurn`: `while (mustDrawCard() && !isBusted())`
with the body `takeCard(deck)` followed by the display of the hand and of a
message when the dealer is busted; at most `fuel` tests of the condition. -/
def playTurnLoop : Nat → Dealer → Deck → Option (Except GameError Unit × Dealer × Deck)
  | 0, _, _ => none
  | fuel + 1, d, deck =>
    if d.mustDrawCard && !d.isBusted then
      match d.takeCard deck with
      | (Except.error e, d1, deck1) => some (Except.error e, d1, deck1)
      | (Except.ok (), d1, deck1) => playTurnLoop fuel d1 deck1
    else some (Except.ok (), d, deck)

/-- The function `Dealer::playTurn`.  Every pass of its loop draws a card, so
one more test than the deck has cards is enough fuel. -/
def Dealer.playTurn (d : Dealer) (deck : Deck) : Option (Except GameError Unit × Dealer × Deck) :=
  playTurnLoop (deck.cards.length + 1) d deck

/-! ## game.h / game.cpp -/

/-- The data members of `class Game`. -/
structure Game where
  deck : Deck
  players : List Player
  dealer : Dealer
  deriving DecidableEq

/-- The function `Deck::shuffle`: the generator is seeded from the hardware, so
the order it produces is an input, constrained to be a rearrangement. -/
def Deck.shuffle (d : Deck) (order : List Card) (_h : order.Perm d.cards) : Deck :=
  ⟨order⟩

/-- The first loop of `Game::dealInitialCards`: two cards to each player in
roster order. -/
def dealPlayers : List Player → Deck → Except GameError Unit × List Player × Deck
  | [], deck => (Except.ok (), [], deck)
  | p :: rest, deck =>
    match p.takeCard deck with
    | (Except.error e, p1, deck1) => (Except.error e, p1 :: rest, deck1)
    | (Except.ok (), p1, deck1) =>
      match p1.takeCard deck1 with
      | (Except.error e, p2, deck2) => (Except.error e, p2 :: rest, deck2)
      | (Except.ok (), p2, deck2) =>
        match dealPlayers rest deck2 with
        | (r, rest1, deck3) => (r, p2 :: rest1, deck3)

/-- The function `Game::dealInitialCards`. -/
def Game.dealInitialCards (g : Game) : Except GameError Unit × Game :=
  match dealPlayers g.players g.deck with
  | (Except.error e, ps, deck1) => (Except.error e, { g with players := ps, deck := deck1 })
  | (Except.ok (), ps, deck1) =>
    match g.dealer.takeCard deck1 with
    | (Except.error e, d1, deck2) => (Except.error e, { players := ps, deck := deck2, dealer := d1 })
    | (Except.ok (), d1, deck2) =>
      match d1.takeCard deck2 with
      | (r, d2, deck3) => (r, { players := ps, deck := deck3, dealer := d2 })

/-- The function `Game::handleSplit`, on the player, the deck `deck_` and the
vector `newSplitPlayers`. -/
def handleSplit (player : Player) (deck : Deck) (newSplitPlayers : List Player) :
    Except GameError Unit × Player × Deck × List Player :=
  if !player.canSplit then (Except.ok (), player, deck, newSplitPlayers)
  else
    let splitPlayer := Player.new (player.name ++ " (Split)")
    match player.splitHand deck with
    | (Except.error e, p1, deck1) => (Except.error e, p1, deck1, newSplitPlayers)
    | (Except.ok secondHand, p1, deck1) =>
      let splitPlayer1 := splitPlayer.setHand secondHand
      match p1.takeCard deck1 with
      | (Except.error e, p2, deck2) => (Except.error e, p2, deck2, newSplitPlayers)
      | (Except.ok (), p2, deck2) =>
        match splitPlayer1.takeCard deck2 with
        | (Except.error e, _, deck3) => (Except.error e, p2, deck3, newSplitPlayers)
        | (Except.ok (), splitPlayer2, deck3) =>
          (Except.ok (), p2, deck3, newSplitPlayers ++ [splitPlayer2])

/-- The variables the body of the `while (true)` loop of `Game::playerTurns`
works on: the current player, the deck, the side vector of split players and
the number of choices read from the console. -/
structure TurnState where
  player : Player
  deck : Deck
  newSplitPlayers : List Player
  pos : Nat
  deriving DecidableEq

/-- The `while (true)` loop of `Game::playerTurns` for one player, run for at
most `fuel` passes; `none` means the fuel ran out before the loop was left. -/
def playerTurnLoop (src : Nat → Int) : Nat → TurnState → Option (Except GameError Unit × TurnState)
  | 0, _ => none
  | fuel + 1, s =>
    match s.player.getPlayerAction src s.pos with
    | (action, pos1) =>
      if action = PlayerAction.Stand ∨ action = PlayerAction.DoubleDown ∨ s.player.isBusted = true then
        some (Except.ok (), { s with pos := pos1 })
      else
        match (if action = PlayerAction.Split ∧ s.player.canSplit = true
               then handleSplit s.player s.deck s.newSplitPlayers
               else (Except.ok (), s.player, s.deck, s.newSplitPlayers)) with
        | (Except.error e, p1, deck1, splits1) => some (Except.error e, ⟨p1, deck1, splits1, pos1⟩)
        | (Except.ok (), p1, deck1, splits1) =>
          match (if action = PlayerAction.Hit then p1.takeCard deck1
                 else (Except.ok (), p1, deck1)) with
          | (Except.error e, p2, deck2) => some (Except.error e, ⟨p2, deck2, splits1, pos1⟩)
          | (Except.ok (), p2, deck2) => playerTurnLoop src fuel ⟨p2, deck2, splits1, pos1⟩

/-- The `for` loop of `Game::playerTurns` over the roster.  The inner loop is
given one more pass than the deck has cards. -/
def playerTurnsFrom (src : Nat → Int) :
    List Player → Deck → List Player → Nat →
      Option (Except GameError Unit × List Player × Deck × List Player × Nat)
  | [], deck, splits, pos => some (Except.ok (), [], deck, splits, pos)
  | p :: rest, deck, splits, pos =>
    match playerTurnLoop src (deck.cards.length + 1) ⟨p, deck, splits, pos⟩ with
    | none => none
    | some (Except.error e, s) => some (Except.error e, s.player :: rest, s.deck, s.newSplitPlayers, s.pos)
    | some (Except.ok (), s) =>
      match playerTurnsFrom src rest s.deck s.newSplitPlayers s.pos with
      | none => none
      | some (r, rest1, deck1, splits1, pos1) => some (r, s.player :: rest1, deck1, splits1, pos1)

/-- The function `Game::playerTurns`: after the roster loop the split players
are pushed to the end of `players_`. -/
def Game.playerTurns (g : Game) (src : Nat → Int) (pos : Nat) :
    Option (Except GameError Unit × Game × Nat) :=
  match playerTurnsFrom src g.players g.deck [] pos with
  | none => none
  | some (Except.error e, ps, deck1, _, pos1) =>
    some (Except.error e, { g with players := ps, deck := deck1 }, pos1)
  | some (Except.ok (), ps, deck1, splits, pos1) =>
    some (Except.ok (), { g with players := ps ++ splits, deck := deck1 }, pos1)

/-- The function `Game::dealerTurn`. -/
def Game.dealerTurn (g : Game) : Option (Except GameError Unit × Game) :=
  match dealerLoop (g.deck.cards.length + 1) g.dealer g.deck with
  | none => none
  | some (r, d1, deck1) => some (r, { g with dealer := d1, deck := deck1 })

/-- The body of the loop of `Game::determineWinner` for one player. -/
def resolvePlayer (dealer : Dealer) (dealerScore : Int) (player : Player) : Player :=
  let playerScore := player.calculateScore
  if player.isBusted then player.recordLoss
  else if dealer.isBusted then player.recordWin
  else if playerScore > dealerScore then player.recordWin
  else if playerScore < dealerScore then player.recordLoss
  else player.recordPush

/-- The function `Game::determineWinner`. -/
def Game.determineWinner (g : Game) : Game :=
  let dealerScore := g.dealer.calculateScore
  { g with players := g.players.map (resolvePlayer g.dealer dealerScore) }

/-- The function `Game::playRound`: shuffle, deal, player turns, dealer turn,
resolution.  An exception leaves the round at the step that threw. -/
def Game.playRound (g : Game) (order : List Card) (h : order.Perm g.deck.cards)
    (src : Nat → Int) (pos : Nat) : Option (Except GameError Unit × Game × Nat) :=
  let g0 : Game := { g with deck := g.deck.shuffle order h }
  match g0.dealInitialCards with
  | (Except.error e, g1) => some (Except.error e, g1, pos)
  | (Except.ok (), g1) =>
    match g1.playerTurns src pos with
    | none => none
    | some (Except.error e, g2, pos1) => some (Except.error e, g2, pos1)
    | some (Except.ok (), g2, pos1) =>
      match g2.dealerTurn with
      | none => none
      | some (Except.error e, g3) => some (Except.error e, g3, pos1)
      | some (Except.ok (), g3) => some (Except.ok (), g3.determineWinner, pos1)

/-- The block of `Game::startGame` that prepares the next round when the
answer to "Play again?" is yes: a new deck, shuffled, and `clearHand` on every
element of `players_` and on the dealer. -/
def Game.nextRoundReset (g : Game) (order : List Card) (h : order.Perm Deck.new.cards) : Game :=
  { deck := Deck.new.shuffle order h,
    players := g.players.map Player.clearHand,
    dealer := g.dealer.clearHand }

/-! ### The statistics file

Text is a list of characters.  The stream operations are those of the classic
locale: `operator<<` writes an `int` in decimal, `operator>>` skips white space
before an `int` or a `char`, and an extraction that fails makes every later
one fail. -/

/-- The text `operator<<` writes for an `int`. -/
def formatInt (n : Int) : List Char :=
  if n < 0 then '-' :: Nat.toDigits 10 n.natAbs else Nat.toDigits 10 n.toNat

/-- The line `Game::saveStatistics` writes for one player, without its newline:
name, games played, won, lost, pushed and best score, separated by colons. -/
def statsLine (p : Player) : String :=
  String.mk (p.name.data ++ [':'] ++ formatInt p.gamesPlayed ++ [':'] ++ formatInt p.gamesWon ++
    [':'] ++ formatInt p.gamesLost ++ [':'] ++ formatInt p.gamesPushed ++ [':'] ++
    formatInt p.maxScore)

/-- The function `Game::saveStatistics`: the text written to the file, one
line per element of `players_`. -/
def Game.saveStatistics (g : Game) : String :=
  String.join (g.players.map (fun p => statsLine p ++ "\n"))

/-- The predicate `std::isspace` of the classic locale: space and the
characters 9 to 13. -/
def isSpaceChar (c : Char) : Bool :=
  decide (c.toNat = 32) || (decide (9 ≤ c.toNat) && decide (c.toNat ≤ 13))

/-- The call `std::getline(iss, name, char)` with the colon as delimiter: the
characters before the first colon, and what follows that colon.  It fails when
nothing at all can be extracted. -/
def getlineColon (input : List Char) : Option (List Char × List Char) :=
  match input with
  | [] => none
  | _ :: _ =>
    some (input.takeWhile (fun c => decide (c ≠ ':')), (input.dropWhile (fun c => decide (c ≠ ':'))).drop 1)

/-- The predicate `std::isdigit`: the characters 48 to 57. -/
def isDigitChar (c : Char) : Bool :=
  decide (48 ≤ c.toNat) && decide (c.toNat ≤ 57)

/-- The number a run of decimal digits denotes. -/
def digitsValue (digits : List Char) : Nat :=
  digits.foldl (fun acc c => acc * 10 + (c.toNat - 48)) 0

/-- The optional sign in front of a number: whether it is a minus, and the
text after it. -/
def readSign (s : List Char) : Bool × List Char :=
  match s with
  | '-' :: t => (true, t)
  | '+' :: t => (false, t)
  | _ => (false, s)

/-- The extraction `iss >> int`: optional white space, optional sign, decimal
digits; it fails without a digit and when the number does not fit an `int`. -/
def readInt (input : List Char) : Option (Int × List Char) :=
  let signed := readSign (input.dropWhile isSpaceChar)
  let digits := signed.2.takeWhile isDigitChar
  let rest := signed.2.dropWhile isDigitChar
  if digits = [] then none
  else
    let v : Int := if signed.1 then -(digitsValue digits : Int) else (digitsValue digits : Int)
    if v < -2147483648 ∨ 2147483647 < v then none else some (v, rest)

/-- The extraction `iss >> char`: optional white space, then one character of
any kind. -/
def readChar (input : List Char) : Option (Char × List Char) :=
  match input.dropWhile isSpaceChar with
  | [] => none
  | c :: rest => some (c, rest)

/-- The condition of the `if` of `Game::parsePlayerStats`: the name up to the
first colon, then five integers with one character between neighbours.  The
result is the name and the five values when every extraction succeeds. -/
def parseStatsLine (line : String) : Option (String × Int × Int × Int × Int × Int) :=
  (getlineColon line.data).bind fun n =>
  (readInt n.2).bind fun gamesPlayed =>
  (readChar gamesPlayed.2).bind fun c1 =>
  (readInt c1.2).bind fun gamesWon =>
  (readChar gamesWon.2).bind fun c2 =>
  (readInt c2.2).bind fun gamesLost =>
  (readChar gamesLost.2).bind fun c3 =>
  (readInt c3.2).bind fun gamesPushed =>
  (readChar gamesPushed.2).bind fun c4 =>
  (readInt c4.2).bind fun maxScore =>
  some (String.mk n.1, gamesPlayed.1, gamesWon.1, gamesLost.1, gamesPushed.1, maxScore.1)

/-- The five setter calls of `Game::parsePlayerStats` on the matching player. -/
def Player.loadStats (p : Player) (gamesPlayed gamesWon gamesLost gamesPushed maxScore : Int) :
    Player :=
  ((((p.setGamesPlayed gamesPlayed).setGamesWon gamesWon).setGamesLost gamesLost).setGamesPushed
    gamesPushed).setGamesScore maxScore

/-- The `for` loop of `Game::parsePlayerStats`: the first player whose name
equals `name` gets the values, then `break`. -/
def loadFirstMatch (name : String) (gamesPlayed gamesWon gamesLost gamesPushed maxScore : Int) :
    List Player → List Player
  | [] => []
  | player :: rest =>
    if player.name = name then
      player.loadStats gamesPlayed gamesWon gamesLost gamesPushed maxScore :: rest
    else player :: loadFirstMatch name gamesPlayed gamesWon gamesLost gamesPushed maxScore rest

/-- The function `Game::parsePlayerStats`. -/
def Game.parsePlayerStats (g : Game) (line : String) : Game :=
  match parseStatsLine line with
  | none => g
  | some (name, gamesPlayed, gamesWon, gamesLost, gamesPushed, maxScore) =>
    { g with players := loadFirstMatch name gamesPlayed gamesWon gamesLost gamesPushed maxScore g.players }

/-! ## Specification-side notions for the score -/

/-- The total of a hand with every Ace valued 1. -/
def hardTotal (hand : List Card) : Int :=
  (hand.map Card.getValue).sum

/-- The number of Aces of a hand. -/
def aceCount (hand : List Card) : Nat :=
  hand.countP Card.isAce

/-- All totals a hand can be given by valuing each Ace 1 or 11 and every other
card at its fixed value. -/
def aceValuations : List Card → List Int
  | [] => [0]
  | c :: cs =>
    if c.isAce then (aceValuations cs).map (fun t => t + 1) ++ (aceValuations cs).map (fun t => t + 11)
    else (aceValuations cs).map (fun t => t + c.getValue)

/-- The three ways a round can end for a participant. -/
inductive RoundOutcome where
  | win
  | loss
  | push
  deriving DecidableEq, Repr

/-- The resolution rule of the specification, on the participant's hand and the
dealer's hand: a busted participant loses; otherwise a busted dealer means a
win; otherwise the higher score wins and equal scores push. -/
def roundOutcome (playerHand dealerHand : List Card) : RoundOutcome :=
  if handScore playerHand > 21 then RoundOutcome.loss
  else if handScore dealerHand > 21 then RoundOutcome.win
  else if handScore playerHand > handScore dealerHand then RoundOutcome.win
  else if handScore playerHand < handScore dealerHand then RoundOutcome.loss
  else RoundOutcome.push

/-- The statistics call that belongs to an outcome. -/
def RoundOutcome.record : RoundOutcome → Player → Player
  | RoundOutcome.win, p => p.recordWin
  | RoundOutcome.loss, p => p.recordLoss
  | RoundOutcome.push, p => p.recordPush

/-- The stop threshold the specification gives each dealer strategy. -/
def DealerStrategy.threshold : DealerStrategy → Int
  | DealerStrategy.Standard => 17
  | DealerStrategy.Aggressive => 18
  | DealerStrategy.Cautious => 16

/-- Successive calls of `Deck::drawCard`, `n` of them, collecting the cards in
the order drawn and stopping at the first one that throws. -/
def drawMany : Nat → Deck → Except GameError (List Card) × Deck
  | 0, d => (Except.ok [], d)
  | n + 1, d =>
    match d.drawCard with
    | (Except.error e, d1) => (Except.error e, d1)
    | (Except.ok c, d1) =>
      match drawMany n d1 with
      | (Except.error e, d2) => (Except.error e, d2)
      | (Except.ok cs, d2) => (Except.ok (c :: cs), d2)

/-- A hand made of the given cards, held by a fresh player of that name. -/
def Player.withHand (playerName : String) (cards : List Card) : Player :=
  (Player.new playerName).setHand cards

/-- An upper bound on the card value a player's turn can still take off the
deck: a hand is hit only while its hard total is at most 21, and a two-card
hand may first be split, which draws three cards. -/
def turnPotential (p : Player) : Int :=
  31 - hardTotal p.hand + (if p.hand.length = 2 then 20 else 0)

/-- A value an `int` counter of the statistics can hold without being
negative: between 0 and `INT_MAX`. -/
def nonNegativeInt (v : Int) : Prop :=
  0 ≤ v ∧ v ≤ 2147483647

instance (v : Int) : Decidable (nonNegativeInt v) := by
  unfold nonNegativeInt
  infer_instance

/-- The participant of the round-trip example: played 5, won 2, lost 2,
pushed 1, best score 21. -/
def samplePlayer (playerName : String) : Player :=
  { Player.new playerName with
    gamesPlayed := 5, gamesWon := 2, gamesLost := 2, gamesPushed := 1, maxScore := 21 }

/-- The total of the cards of a hand that are not Aces. -/
def nonAceTotal (hand : List Card) : Int :=
  hardTotal (hand.filter (fun c => !c.isAce))

/-- The dealer loop without the guard `!isBusted()`:
`while (mustDrawCard()) takeCard(deck)`, for at most `fuel` tests. -/
def drawWhileMust : Nat → Dealer → Deck → Option (Except GameError Unit × Dealer × Deck)
  | 0, _, _ => none
  | fuel + 1, d, deck =>
    if d.mustDrawCard then
      match d.takeCard deck with
      | (Except.error e, d1, deck1) => some (Except.error e, d1, deck1)
      | (Except.ok (), d1, deck1) => drawWhileMust fuel d1 deck1
    else some (Except.ok (), d, deck)

/-- A call of one of the four statistics updates of `Player`. -/
inductive StatsCall where
  | recordWin
  | recordLoss
  | recordPush
  | updateMaxScore (score : Int)
  deriving DecidableEq, Repr

/-- The effect of one statistics call on a participant. -/
def StatsCall.apply : StatsCall → Player → Player
  | StatsCall.recordWin, p => p.recordWin
  | StatsCall.recordLoss, p => p.recordLoss
  | StatsCall.recordPush, p => p.recordPush
  | StatsCall.updateMaxScore score, p => p.updateMaxScore score

/-- A finite sequence of statistics calls, made in list order. -/
def applyCalls (calls : List StatsCall) (p : Player) : Player :=
  calls.foldl (fun q call => call.apply q) p

/-- The ledger invariant: games played are the sum of the three outcomes, no
outcome counter is negative, and the win rate is the one `updateWinRate`
computes from the counters. -/
def ledgerInvariant (p : Player) : Prop :=
  p.gamesPlayed = p.gamesWon + p.gamesLost + p.gamesPushed ∧
  0 ≤ p.gamesWon ∧ 0 ≤ p.gamesLost ∧ 0 ≤ p.gamesPushed ∧
  p.winRate = if 0 < p.gamesPlayed then winRateExpr p.gamesWon p.gamesPlayed else Double.zero

/-- An `int` value that `++` increases by one: any `int` below `INT_MAX`. -/
def belowIntMax (v : Int) : Prop :=
  -2147483648 ≤ v ∧ v < 2147483647

instance (v : Int) : Decidable (belowIntMax v) := by
  unfold belowIntMax
  infer_instance

/-- A shuffled order of the fresh deck with the King and the Queen of Spades
on top, so that the first player is dealt a pair of ten-valued cards. -/
def pairOnTopOrder : List Card :=
  Deck.new.cards.take 49 ++
    [⟨Suit.Spades, Rank.Ace⟩, ⟨Suit.Spades, Rank.Queen⟩, ⟨Suit.Spades, Rank.King⟩]

/-- A table with one player, Ann, a standard dealer and a fresh deck. -/
def oneSeatGame : Game :=
  Game.mk Deck.new [Player.new "Ann"] Dealer.new

theorem getValue_bounds (c : Card) : 1 ≤ c.getValue ∧ c.getValue ≤ 10 := by
  rcases c with ⟨s, r⟩
  cases r <;> simp [Card.getValue, Rank.toInt]

theorem getValue_of_isAce (c : Card) (h : c.isAce = true) : c.getValue = 1 := by
  rcases c with ⟨s, r⟩
  cases r <;> simp_all [Card.getValue, Card.isAce]

theorem getValue_of_not_isAce (c : Card) (h : c.isAce = false) : 2 ≤ c.getValue := by
  rcases c with ⟨s, r⟩
  cases r <;> simp_all [Card.getValue, Card.isAce, Rank.toInt]

theorem hardTotal_cons (c : Card) (cs : List Card) :
    hardTotal (c :: cs) = c.getValue + hardTotal cs := by
  simp [hardTotal]

theorem hardTotal_append (xs ys : List Card) :
    hardTotal (xs ++ ys) = hardTotal xs + hardTotal ys := by
  simp [hardTotal]

theorem aceCount_cons (c : Card) (cs : List Card) :
    aceCount (c :: cs) = aceCount cs + (if c.isAce then 1 else 0) := by
  simp [aceCount, List.countP_cons]

theorem foldl_scoreStep (hand : List Card) (acc : Int × Nat) :
    hand.foldl scoreStep acc = (acc.1 + hardTotal hand, acc.2 + aceCount hand) := by
  induction hand generalizing acc with
  | nil => simp [hardTotal, aceCount]
  | cons c cs ih =>
    rw [List.foldl_cons, ih, hardTotal_cons, aceCount_cons]
    by_cases hc : c.isAce = true
    · simp [scoreStep, hc, getValue_of_isAce c hc]
      constructor <;> omega
    · simp [scoreStep, hc]
      omega

theorem aceCount_le_hardTotal (hand : List Card) : (aceCount hand : Int) ≤ hardTotal hand := by
  induction hand with
  | nil => simp [hardTotal, aceCount]
  | cons c cs ih =>
    rw [hardTotal_cons, aceCount_cons]
    have hb := (getValue_bounds c).1
    split <;> push_cast <;> omega

theorem hardTotal_nonneg (hand : List Card) : 0 ≤ hardTotal hand :=
  le_trans (Int.ofNat_nonneg _) (aceCount_le_hardTotal hand)

theorem promoteAces_of_gt (n : Nat) (s : Int) (h : 11 < s) : promoteAces n s = s := by
  induction n with
  | zero => rfl
  | succ n ih =>
    have : ¬ (s + 10 ≤ 21) := by omega
    simp [promoteAces, this, ih]

theorem promoteAces_closed (n : Nat) (s : Int) (hn : 1 ≤ n) (hs : (n : Int) ≤ s) :
    promoteAces n s = if s ≤ 11 then s + 10 else s := by
  obtain ⟨m, rfl⟩ : ∃ m, n = m + 1 := ⟨n - 1, by omega⟩
  by_cases h : s ≤ 11
  · have h1 : s + 10 ≤ 21 := by omega
    simp only [promoteAces, h1, h, if_true]
    cases m with
    | zero => rfl
    | succ k =>
      apply promoteAces_of_gt
      push_cast at hs
      omega
  · have h1 : ¬ (s + 10 ≤ 21) := by omega
    simp only [promoteAces, h1, h, if_false]
    exact promoteAces_of_gt m s (by omega)

/-- The score in closed form: one Ace is promoted to 11 exactly when the hand
holds an Ace and its hard total is at most 11. -/
theorem handScore_closed (hand : List Card) :
    handScore hand =
      if 1 ≤ aceCount hand ∧ hardTotal hand ≤ 11 then hardTotal hand + 10 else hardTotal hand := by
  unfold handScore
  rw [foldl_scoreStep]
  simp only [zero_add]
  by_cases hn : 1 ≤ aceCount hand
  · rw [promoteAces_closed _ _ hn (aceCount_le_hardTotal hand)]
    simp [hn]
  · have h0 : aceCount hand = 0 := by omega
    simp [h0, promoteAces]

theorem mem_aceValuations (hand : List Card) (t : Int) :
    t ∈ aceValuations hand ↔ ∃ k : Nat, k ≤ aceCount hand ∧ t = hardTotal hand + 10 * k := by
  induction hand generalizing t with
  | nil => simp [aceValuations, hardTotal, aceCount]
  | cons c cs ih =>
    rw [hardTotal_cons, aceCount_cons]
    by_cases hc : c.isAce = true
    · have hv := getValue_of_isAce c hc
      simp only [aceValuations, hc, if_true, List.mem_append, List.mem_map, hv]
      constructor
      · rintro (⟨u, hu, rfl⟩ | ⟨u, hu, rfl⟩)
        · obtain ⟨k, hk, rfl⟩ := (ih u).1 hu
          exact ⟨k, by omega, by omega⟩
        · obtain ⟨k, hk, rfl⟩ := (ih u).1 hu
          exact ⟨k + 1, by omega, by push_cast; omega⟩
      · rintro ⟨k, hk, rfl⟩
        by_cases hle : k ≤ aceCount cs
        · exact Or.inl ⟨hardTotal cs + 10 * k, (ih _).2 ⟨k, hle, rfl⟩, by omega⟩
        · obtain ⟨j, rfl⟩ : ∃ j, k = j + 1 := ⟨k - 1, by omega⟩
          exact Or.inr ⟨hardTotal cs + 10 * j, (ih _).2 ⟨j, by omega, rfl⟩, by push_cast; omega⟩
    · simp only [aceValuations, hc, List.mem_map, Bool.false_eq_true, if_false, add_zero]
      constructor
      · rintro ⟨u, hu, rfl⟩
        obtain ⟨k, hk, rfl⟩ := (ih u).1 hu
        exact ⟨k, hk, by omega⟩
      · rintro ⟨k, hk, rfl⟩
        exact ⟨hardTotal cs + 10 * k, (ih _).2 ⟨k, hk, rfl⟩, by omega⟩

/-! ## Claims -/

/-- C1: for every hand, when some valuation of the Aces (each 1 or 11) gives a
total of at most 21, `Player::calculateScore` returns a total of such a
valuation, at most 21, that no valuation of at most 21 exceeds; when no
valuation gives 21 or less it returns the total with every Ace valued 1. -/
theorem calculateScore_best_valuation (p : Player) :
    ((∃ t ∈ aceValuations p.hand, t ≤ 21) →
      p.calculateScore ∈ aceValuations p.hand ∧ p.calculateScore ≤ 21 ∧
        ∀ t ∈ aceValuations p.hand, t ≤ 21 → t ≤ p.calculateScore) ∧
    ((¬ ∃ t ∈ aceValuations p.hand, t ≤ 21) → p.calculateScore = hardTotal p.hand) := by
  have hn := aceCount_le_hardTotal p.hand
  have hc := handScore_closed p.hand
  unfold Player.calculateScore
  constructor
  · rintro ⟨t, ht, ht21⟩
    obtain ⟨k, hk, rfl⟩ := (mem_aceValuations _ _).1 ht
    by_cases hp : 1 ≤ aceCount p.hand ∧ hardTotal p.hand ≤ 11
    · rw [hc, if_pos hp]
      refine ⟨(mem_aceValuations _ _).2 ⟨1, hp.1, by simp⟩, by omega, ?_⟩
      intro u hu hu21
      obtain ⟨j, hj, rfl⟩ := (mem_aceValuations _ _).1 hu
      omega
    · rw [hc, if_neg hp]
      refine ⟨(mem_aceValuations _ _).2 ⟨0, by omega, by simp⟩, by omega, ?_⟩
      intro u hu hu21
      obtain ⟨j, hj, rfl⟩ := (mem_aceValuations _ _).1 hu
      by_cases hj0 : j = 0
      · subst hj0; simp
      · exfalso; apply hp; constructor <;> omega
  · intro hno
    rw [hc]
    split
    · next hp =>
      exfalso
      exact hno ⟨hardTotal p.hand + 10, (mem_aceValuations _ _).2 ⟨1, hp.1, by simp⟩, by omega⟩
    · rfl

/-- Witness for C1: Ace and Nine score 20, the best valuation; King, Queen and
Five have no valuation within 21 and score their hard total. -/
theorem calculateScore_best_valuation_witness :
    ((∃ t ∈ aceValuations (Player.withHand "Ann" [⟨Suit.Spades, Rank.Ace⟩, ⟨Suit.Hearts, Rank.Nine⟩]).hand,
        t ≤ 21) ∧
      (Player.withHand "Ann" [⟨Suit.Spades, Rank.Ace⟩, ⟨Suit.Hearts, Rank.Nine⟩]).calculateScore = 20 ∧
      ∀ t ∈ aceValuations (Player.withHand "Ann" [⟨Suit.Spades, Rank.Ace⟩, ⟨Suit.Hearts, Rank.Nine⟩]).hand,
        t ≤ 21 →
          t ≤ (Player.withHand "Ann" [⟨Suit.Spades, Rank.Ace⟩, ⟨Suit.Hearts, Rank.Nine⟩]).calculateScore) ∧
    ((¬ ∃ t ∈ aceValuations
          (Player.withHand "Bob" [⟨Suit.Clubs, Rank.King⟩, ⟨Suit.Hearts, Rank.Queen⟩, ⟨Suit.Clubs, Rank.Five⟩]).hand,
        t ≤ 21) ∧
      (Player.withHand "Bob"
          [⟨Suit.Clubs, Rank.King⟩, ⟨Suit.Hearts, Rank.Queen⟩, ⟨Suit.Clubs, Rank.Five⟩]).calculateScore =
        hardTotal (Player.withHand "Bob"
          [⟨Suit.Clubs, Rank.King⟩, ⟨Suit.Hearts, Rank.Queen⟩, ⟨Suit.Clubs, Rank.Five⟩]).hand) :=
  ⟨⟨by decide, by decide,
      ((calculateScore_best_valuation
        (Player.withHand "Ann" [⟨Suit.Spades, Rank.Ace⟩, ⟨Suit.Hearts, Rank.Nine⟩])).1 (by decide)).2.2⟩,
    ⟨by decide,
      (calculateScore_best_valuation
        (Player.withHand "Bob"
          [⟨Suit.Clubs, Rank.King⟩, ⟨Suit.Hearts, Rank.Queen⟩, ⟨Suit.Clubs, Rank.Five⟩])).2 (by decide)⟩⟩

/-! ### Round resolution -/

theorem resolvePlayer_eq_record (dealer : Dealer) (player : Player) :
    resolvePlayer dealer dealer.calculateScore player =
      (roundOutcome player.hand dealer.hand).record player := by
  unfold resolvePlayer roundOutcome
  simp only [Player.isBusted, Player.calculateScore, decide_eq_true_eq]
  split_ifs <;> rfl

theorem wrapInt32_succ (v : Int) (h : belowIntMax v) : wrapInt32 (v + 1) = v + 1 := by
  obtain ⟨h1, h2⟩ := h
  unfold wrapInt32
  omega

theorem wrapInt32_succ_ne (v : Int) : wrapInt32 (v + 1) ≠ v := by
  unfold wrapInt32
  omega

theorem record_gamesPlayed (o : RoundOutcome) (p : Player) :
    (o.record p).gamesPlayed = wrapInt32 (p.gamesPlayed + 1) := by
  cases o <;> rfl

theorem record_distinct (p : Player) :
    p.recordWin ≠ p.recordLoss ∧ p.recordWin ≠ p.recordPush ∧ p.recordLoss ≠ p.recordPush := by
  refine ⟨?_, ?_, ?_⟩
  · intro h
    have e : wrapInt32 (p.gamesWon + 1) = p.gamesWon := congrArg Player.gamesWon h
    exact wrapInt32_succ_ne _ e
  · intro h
    have e : wrapInt32 (p.gamesWon + 1) = p.gamesWon := congrArg Player.gamesWon h
    exact wrapInt32_succ_ne _ e
  · intro h
    have e : wrapInt32 (p.gamesLost + 1) = p.gamesLost := congrArg Player.gamesLost h
    exact wrapInt32_succ_ne _ e

/-- C2: `Game::determineWinner` replaces every participant of the roster by the
result of exactly one of `recordWin`, `recordLoss`, `recordPush` on it (the
three results differ, and `gamesPlayed` is incremented as an `int`: it grows by
one from every value below `INT_MAX`), chosen by the resolution
rule from that participant's hand and the dealer's hand alone; the roster keeps
its length and order, and the dealer and the deck are untouched. -/
theorem determineWinner_resolves_each_participant (g : Game) (i : Nat) (p : Player)
    (hp : g.players[i]? = some p) :
    g.determineWinner.players[i]? = some ((roundOutcome p.hand g.dealer.hand).record p) ∧
    (((roundOutcome p.hand g.dealer.hand).record p).gamesPlayed = wrapInt32 (p.gamesPlayed + 1) ∧
      (belowIntMax p.gamesPlayed →
        ((roundOutcome p.hand g.dealer.hand).record p).gamesPlayed = p.gamesPlayed + 1)) ∧
    (p.recordWin ≠ p.recordLoss ∧ p.recordWin ≠ p.recordPush ∧ p.recordLoss ≠ p.recordPush) ∧
    (handScore p.hand > 21 → roundOutcome p.hand g.dealer.hand = RoundOutcome.loss) ∧
    g.determineWinner.players.length = g.players.length ∧
    g.determineWinner.dealer = g.dealer ∧ g.determineWinner.deck = g.deck := by
  refine ⟨?_, ⟨record_gamesPlayed _ _, fun hb => ?_⟩, record_distinct p, ?_, ?_, rfl, rfl⟩
  · simp only [Game.determineWinner, List.getElem?_map, hp, Option.map_some']
    rw [resolvePlayer_eq_record]
  · rw [record_gamesPlayed, wrapInt32_succ _ hb]
  · intro h
    simp [roundOutcome, h]
  · simp [Game.determineWinner]

/-- Witness for C2: player with Ten and Nine (19) against a dealer holding Ten
and Eight (18) gets `recordWin`. -/
theorem determineWinner_resolves_each_participant_witness :
    (Game.mk Deck.new
        [Player.withHand "Ann" [⟨Suit.Diamonds, Rank.Ten⟩, ⟨Suit.Spades, Rank.Nine⟩]]
        { Dealer.new with hand := [⟨Suit.Clubs, Rank.Ten⟩, ⟨Suit.Hearts, Rank.Eight⟩] }).determineWinner.players[0]? =
      some (Player.withHand "Ann" [⟨Suit.Diamonds, Rank.Ten⟩, ⟨Suit.Spades, Rank.Nine⟩]).recordWin :=
  (determineWinner_resolves_each_participant
    (Game.mk Deck.new
        [Player.withHand "Ann" [⟨Suit.Diamonds, Rank.Ten⟩, ⟨Suit.Spades, Rank.Nine⟩]]
        { Dealer.new with hand := [⟨Suit.Clubs, Rank.Ten⟩, ⟨Suit.Hearts, Rank.Eight⟩] })
    0 (Player.withHand "Ann" [⟨Suit.Diamonds, Rank.Ten⟩, ⟨Suit.Spades, Rank.Nine⟩]) rfl).1

/-! ### Drawing -/

theorem drawCard_append (rest : List Card) (c : Card) :
    Deck.drawCard ⟨rest ++ [c]⟩ = (Except.ok c, ⟨rest⟩) := by
  simp [Deck.drawCard]

theorem drawCard_nil : Deck.drawCard ⟨[]⟩ = (Except.error GameError.deckEmpty, ⟨[]⟩) := rfl

theorem takeCard_append (p : Player) (rest : List Card) (c : Card) :
    p.takeCard ⟨rest ++ [c]⟩ = (Except.ok (), { p with hand := p.hand ++ [c] }, ⟨rest⟩) := by
  simp [Player.takeCard, drawCard_append]

theorem exists_append_of_ne_nil (cards : List Card) (h : cards ≠ []) :
    ∃ rest c, cards = rest ++ [c] :=
  ⟨cards.dropLast, cards.getLast h, (List.dropLast_append_getLast h).symm⟩

theorem handScore_le_of_length_two (hand : List Card) (h : hand.length = 2) :
    handScore hand ≤ 21 := by
  match hand, h with
  | [a, b], _ =>
    rw [handScore_closed]
    have ha := getValue_bounds a
    have hb := getValue_bounds b
    simp only [hardTotal, List.map_cons, List.map_nil, List.sum_cons, List.sum_nil]
    split <;> omega

/-! ### The player turn -/

/-- C3 (what the code does): when a player holding exactly two cards chooses
`DoubleDown` (choice 3), the `while (true)` loop of `Game::playerTurns` is left
at once: the hand, the deck and the split players are unchanged, no card is
drawn, and one choice has been read. -/
theorem doubleDown_ends_turn_without_draw (src : Nat → Int) (fuel : Nat) (s : TurnState)
    (hlen : s.player.hand.length = 2) (hchoice : src s.pos = 3) :
    s.player.convertChoiceToAction (src s.pos) = PlayerAction.DoubleDown ∧
    playerTurnLoop src (fuel + 1) s = some (Except.ok (), { s with pos := s.pos + 1 }) := by
  have hb : s.player.isBusted = false := by
    have := handScore_le_of_length_two s.player.hand hlen
    simp only [Player.isBusted, Player.calculateScore, decide_eq_false_iff_not]
    omega
  have hact : s.player.convertChoiceToAction (src s.pos) = PlayerAction.DoubleDown := by
    simp [Player.convertChoiceToAction, hchoice, Player.canDoubleDown, hlen]
  refine ⟨hact, ?_⟩
  simp [playerTurnLoop, Player.getPlayerAction, hb, hact]

/-- Witness for C3: Five and Six, choice 3, fresh deck: the turn ends with the
two-card hand and all 52 cards still in the deck. -/
theorem doubleDown_ends_turn_without_draw_witness :
    (Player.withHand "Ann" [⟨Suit.Hearts, Rank.Five⟩, ⟨Suit.Spades, Rank.Six⟩]).canDoubleDown = true ∧
    playerTurnLoop (fun _ => 3) 53
        ⟨Player.withHand "Ann" [⟨Suit.Hearts, Rank.Five⟩, ⟨Suit.Spades, Rank.Six⟩], Deck.new, [], 0⟩ =
      some (Except.ok (),
        ⟨Player.withHand "Ann" [⟨Suit.Hearts, Rank.Five⟩, ⟨Suit.Spades, Rank.Six⟩], Deck.new, [], 1⟩) :=
  ⟨rfl, (doubleDown_ends_turn_without_draw (fun _ => 3) 52
    ⟨Player.withHand "Ann" [⟨Suit.Hearts, Rank.Five⟩, ⟨Suit.Spades, Rank.Six⟩], Deck.new, [], 0⟩
    rfl rfl).2⟩

theorem handleSplit_eq (player : Player) (splits : List Player)
    (first second d1 d2 d3 : Card) (rest : List Card)
    (hhand : player.hand = [first, second]) (hval : first.getValue = second.getValue) :
    player.canSplit = true ∧
    handleSplit player ⟨rest ++ [d3, d2, d1]⟩ splits =
      (Except.ok (), { player with hand := [first, d1, d2] }, ⟨rest⟩,
        splits ++ [(Player.new (player.name ++ " (Split)")).setHand [second, d3]]) := by
  have hcan : player.canSplit = true := by simp [Player.canSplit, hhand, hval]
  refine ⟨hcan, ?_⟩
  have e1 : rest ++ [d3, d2, d1] = ((rest ++ [d3]) ++ [d2]) ++ [d1] := by simp
  rw [e1]
  simp only [handleSplit, hcan, Player.splitHand, hhand, takeCard_append,
    Player.setHand, Player.new, Bool.not_true, Bool.false_eq_true, if_false, if_true]
  simp

/-- C4 (what the code does): for a player who can split and a deck whose top
three cards are `d1`, `d2`, `d3` (in drawing order), `Game::handleSplit` leaves
the originating hand with its first card and two drawn cards (`splitHand` draws
one, `handleSplit` draws another), gives the split participant the second card
and one drawn card, and takes three cards off the deck. -/
theorem handleSplit_draws_three (player : Player) (splits : List Player)
    (first second d1 d2 d3 : Card) (rest : List Card)
    (hhand : player.hand = [first, second]) (hval : first.getValue = second.getValue) :
    player.canSplit = true ∧
    (∃ p1 deck1 sp, handleSplit player ⟨rest ++ [d3, d2, d1]⟩ splits =
        (Except.ok (), p1, deck1, splits ++ [sp]) ∧
      p1.hand = [first, d1, d2] ∧ p1.hand.length = 3 ∧
      sp.hand = [second, d3] ∧ sp.name = player.name ++ " (Split)" ∧
      deck1.cards = rest ∧ deck1.cards.length + 3 = (rest ++ [d3, d2, d1]).length) := by
  obtain ⟨hcan, h⟩ := handleSplit_eq player splits first second d1 d2 d3 rest hhand hval
  exact ⟨hcan, _, _, _, h, rfl, rfl, rfl, rfl, rfl, by simp⟩

/-- Witness for C4: a pair of Eights split on a fresh deck ends with three
cards in the originating hand and 49 cards in the deck. -/
theorem handleSplit_draws_three_witness :
    ∃ p1 deck1 sp,
      handleSplit (Player.withHand "Ann" [⟨Suit.Hearts, Rank.Eight⟩, ⟨Suit.Spades, Rank.Eight⟩])
          Deck.new [] = (Except.ok (), p1, deck1, [sp]) ∧
        p1.hand = [⟨Suit.Hearts, Rank.Eight⟩, ⟨Suit.Spades, Rank.Ace⟩, ⟨Suit.Spades, Rank.King⟩] ∧
        p1.hand.length = 3 ∧
        sp.hand = [⟨Suit.Spades, Rank.Eight⟩, ⟨Suit.Spades, Rank.Queen⟩] ∧
        sp.name = "Ann (Split)" ∧
        deck1.cards = Deck.new.cards.take 49 ∧ deck1.cards.length + 3 = 52 :=
  (handleSplit_draws_three
    (Player.withHand "Ann" [⟨Suit.Hearts, Rank.Eight⟩, ⟨Suit.Spades, Rank.Eight⟩]) []
    ⟨Suit.Hearts, Rank.Eight⟩ ⟨Suit.Spades, Rank.Eight⟩
    ⟨Suit.Spades, Rank.Ace⟩ ⟨Suit.Spades, Rank.King⟩ ⟨Suit.Spades, Rank.Queen⟩
    (Deck.new.cards.take 49) rfl rfl).2

/-! ### The deck -/

theorem newDeck_nodup : Deck.new.cards.Nodup := by
  decide

theorem drawMany_of_le (n : Nat) (d : Deck) (h : n ≤ d.cards.length) :
    ∃ drawn rest, drawMany n d = (Except.ok drawn, ⟨rest⟩) ∧
      d.cards = rest ++ drawn.reverse ∧ drawn.length = n := by
  induction n generalizing d with
  | zero => exact ⟨[], d.cards, rfl, by simp, rfl⟩
  | succ n ih =>
    have hne : d.cards ≠ [] := by
      intro h0
      rw [h0] at h
      simp at h
    obtain ⟨rest, c, hc⟩ := exists_append_of_ne_nil d.cards hne
    have hd : d = ⟨rest ++ [c]⟩ := by cases d; simp_all
    have hlen : n ≤ (Deck.mk rest).cards.length := by
      rw [hc] at h
      simp at h
      simpa using h
    obtain ⟨drawn, rest1, h1, h2, h3⟩ := ih ⟨rest⟩ hlen
    refine ⟨c :: drawn, rest1, ?_, ?_, by simp [h3]⟩
    · rw [hd]
      simp only [drawMany, drawCard_append, h1]
    · rw [hc]
      simp only at h2
      simp [h2]

/-- C6: newly constructed deck has exactly 52 cards, pairwise distinct, and
every suit and rank combination occurs in it exactly once. -/
theorem newDeck_has_each_card_once :
    Deck.new.cards.length = 52 ∧ Deck.new.cards.Nodup ∧
      ∀ (s : Suit) (r : Rank), Deck.new.cards.count ⟨s, r⟩ = 1 := by
  refine ⟨by decide, newDeck_nodup, ?_⟩
  intro s r
  cases s <;> cases r <;> decide

/-- C7: on a non-empty deck `Deck::drawCard` returns the last card of the
sequence and leaves the cards before it as they were; and for every `n` up to
52, `n` successive draws from a newly constructed deck all succeed, leave
`52 - n` cards, and the `n` cards drawn are pairwise distinct. -/
theorem drawCard_takes_top :
    (∀ d : Deck, d.cards ≠ [] →
      ∃ rest topCard, d.cards = rest ++ [topCard] ∧ d.drawCard = (Except.ok topCard, ⟨rest⟩)) ∧
    (∀ n : Nat, n ≤ 52 →
      ∃ drawn rest, drawMany n Deck.new = (Except.ok drawn, rest) ∧
        rest.cards.length = 52 - n ∧ drawn.length = n ∧ drawn.Nodup) := by
  constructor
  · intro d hne
    obtain ⟨rest, c, hc⟩ := exists_append_of_ne_nil d.cards hne
    refine ⟨rest, c, hc, ?_⟩
    have hd : d = ⟨rest ++ [c]⟩ := by cases d; simp_all
    rw [hd, drawCard_append]
  · intro n hn
    have hlen : Deck.new.cards.length = 52 := by decide
    obtain ⟨drawn, rest, h1, h2, h3⟩ := drawMany_of_le n Deck.new (by omega)
    refine ⟨drawn, ⟨rest⟩, h1, ?_, h3, ?_⟩
    · have := congrArg List.length h2
      simp only [List.length_append, List.length_reverse] at this
      simp only
      omega
    · have hnd := newDeck_nodup
      rw [h2] at hnd
      exact List.nodup_reverse.1 (List.Nodup.of_append_right hnd)

/-- Witness for C7: the top card of a fresh deck is the Ace of Spades, and
after five draws 47 cards remain. -/
theorem drawCard_takes_top_witness :
    (∃ rest topCard, Deck.new.cards = rest ++ [topCard] ∧
      Deck.new.drawCard = (Except.ok topCard, ⟨rest⟩)) ∧
    (∃ drawn rest, drawMany 5 Deck.new = (Except.ok drawn, rest) ∧
        rest.cards.length = 52 - 5 ∧ drawn.length = 5 ∧ drawn.Nodup) :=
  ⟨drawCard_takes_top.1 Deck.new (by decide), drawCard_takes_top.2 5 (by decide)⟩

/-- C8: `Deck::drawCard` throws exactly when the deck is empty; on an empty
deck it returns no card and the deck stays empty; and `Player::takeCard` on an
empty deck passes the error on with the hand and the deck unchanged. -/
theorem drawCard_fails_iff_empty (d : Deck) :
    ((∃ e, d.drawCard.1 = Except.error e) ↔ d.isEmpty = true) ∧
    (d.isEmpty = true → d.drawCard = (Except.error GameError.deckEmpty, d) ∧ d.drawCard.2.isEmpty = true) ∧
    (∀ p : Player, d.isEmpty = true → p.takeCard d = (Except.error GameError.deckEmpty, p, d)) := by
  rcases d with ⟨cards⟩
  by_cases hne : cards = []
  · subst hne
    refine ⟨?_, ?_, ?_⟩
    · exact ⟨fun _ => rfl, fun _ => ⟨GameError.deckEmpty, rfl⟩⟩
    · intro _; exact ⟨rfl, rfl⟩
    · intro p _; rfl
  · obtain ⟨rest, c, rfl⟩ := exists_append_of_ne_nil cards hne
    refine ⟨?_, ?_, ?_⟩
    · simp [drawCard_append, Deck.isEmpty]
    · intro h; simp [Deck.isEmpty] at h
    · intro p h; simp [Deck.isEmpty] at h

/-- Witness for C8: a player holding a Seven who draws from the empty deck gets
the error and keeps that hand. -/
theorem drawCard_fails_iff_empty_witness :
    (Deck.mk []).isEmpty = true ∧
    (Player.withHand "Ann" [⟨Suit.Clubs, Rank.Seven⟩]).takeCard ⟨[]⟩ =
      (Except.error GameError.deckEmpty, Player.withHand "Ann" [⟨Suit.Clubs, Rank.Seven⟩], ⟨[]⟩) :=
  ⟨rfl, (drawCard_fails_iff_empty ⟨[]⟩).2.2 (Player.withHand "Ann" [⟨Suit.Clubs, Rank.Seven⟩]) rfl⟩

/-! ### The dealer -/

theorem mustDrawCard_eq (d : Dealer) :
    d.mustDrawCard = decide (d.calculateScore ≤ d.strategy.threshold - 1) := by
  unfold Dealer.mustDrawCard
  cases hs : d.strategy <;>
    by_cases hb : d.calculateScore > 21 <;>
    simp [Player.isBusted, hb, DealerStrategy.threshold] <;> omega

/-- C9: `Dealer::mustDrawCard` is false for a busted dealer and otherwise true
exactly when the score is at most the threshold of the strategy minus one
(17, 18, 16 for Standard, Aggressive, Cautious): Standard draws on 16 and
stands on 17, Aggressive draws on 17 and stands on 18, Cautious draws on 15
and stands on 16. -/
theorem mustDrawCard_threshold (d : Dealer) :
    (d.isBusted = true → d.mustDrawCard = false) ∧
    (d.isBusted = false →
      (d.mustDrawCard = true ↔ d.calculateScore ≤ d.strategy.threshold - 1)) ∧
    (d.strategy = DealerStrategy.Standard →
      (d.calculateScore = 16 → d.mustDrawCard = true) ∧
      (d.calculateScore = 17 → d.mustDrawCard = false)) ∧
    (d.strategy = DealerStrategy.Aggressive →
      (d.calculateScore = 17 → d.mustDrawCard = true) ∧
      (d.calculateScore = 18 → d.mustDrawCard = false)) ∧
    (d.strategy = DealerStrategy.Cautious →
      (d.calculateScore = 15 → d.mustDrawCard = true) ∧
      (d.calculateScore = 16 → d.mustDrawCard = false)) := by
  refine ⟨?_, ?_, ?_, ?_, ?_⟩
  · intro hb
    simp [Dealer.mustDrawCard, hb]
  · intro _
    rw [mustDrawCard_eq]
    simp
  all_goals
    intro hs
    rw [mustDrawCard_eq, hs]
    constructor <;> intro h <;> simp [h, DealerStrategy.threshold]

/-- Witness for C9: a Standard dealer holding Ten and Six (16) must draw, and
holding Ten and Seven (17) must not. -/
theorem mustDrawCard_threshold_witness :
    Dealer.mustDrawCard { Dealer.new with hand := [⟨Suit.Clubs, Rank.Ten⟩, ⟨Suit.Hearts, Rank.Six⟩] } = true ∧
    Dealer.mustDrawCard { Dealer.new with hand := [⟨Suit.Clubs, Rank.Ten⟩, ⟨Suit.Hearts, Rank.Seven⟩] } = false :=
  ⟨((mustDrawCard_threshold
      { Dealer.new with hand := [⟨Suit.Clubs, Rank.Ten⟩, ⟨Suit.Hearts, Rank.Six⟩] }).2.2.1 rfl).1 (by decide),
   ((mustDrawCard_threshold
      { Dealer.new with hand := [⟨Suit.Clubs, Rank.Ten⟩, ⟨Suit.Hearts, Rank.Seven⟩] }).2.2.1 rfl).2 (by decide)⟩

theorem dealer_takeCard_append (d : Dealer) (rest : List Card) (c : Card) :
    d.takeCard ⟨rest ++ [c]⟩ =
      (Except.ok (), { d with toPlayer := { d.toPlayer with hand := d.hand ++ [c] } }, ⟨rest⟩) := by
  simp [Dealer.takeCard, takeCard_append]

theorem dealerLoop_stop (fuel : Nat) (d : Dealer) (deck : Deck)
    (h : (d.mustDrawCard && !d.isBusted) = false) :
    dealerLoop (fuel + 1) d deck = some (Except.ok (), d, deck) := by
  simp [dealerLoop, h]

theorem dealerLoop_empty (fuel : Nat) (d : Dealer)
    (h : (d.mustDrawCard && !d.isBusted) = true) :
    dealerLoop (fuel + 1) d ⟨[]⟩ = some (Except.error GameError.deckEmpty, d, ⟨[]⟩) := by
  simp only [dealerLoop, h, if_true]
  rfl

theorem dealerLoop_draw (fuel : Nat) (d : Dealer) (rest : List Card) (c : Card)
    (h : (d.mustDrawCard && !d.isBusted) = true) :
    dealerLoop (fuel + 1) d ⟨rest ++ [c]⟩ =
      dealerLoop fuel { d with toPlayer := { d.toPlayer with hand := d.hand ++ [c] } } ⟨rest⟩ := by
  simp only [dealerLoop, h, if_true, dealer_takeCard_append]

/-- The dealer loop with more fuel than the deck has cards: it ends, the
strategy is kept, a normal end leaves `mustDrawCard()` false or the dealer
busted, and the result is that of the run with one more test than cards. -/
theorem dealerLoop_spec (fuel : Nat) (d : Dealer) (deck : Deck) (hfuel : deck.cards.length < fuel) :
    ∃ r d1 deck1, dealerLoop fuel d deck = some (r, d1, deck1) ∧
      dealerLoop (deck.cards.length + 1) d deck = some (r, d1, deck1) ∧
      d1.strategy = d.strategy ∧
      (r = Except.ok () → (d1.mustDrawCard && !d1.isBusted) = false) := by
  induction fuel generalizing d deck with
  | zero => omega
  | succ fuel ih =>
    by_cases hc : (d.mustDrawCard && !d.isBusted) = true
    · rcases deck with ⟨cards⟩
      by_cases hne : cards = []
      · subst hne
        exact ⟨_, _, _, dealerLoop_empty fuel d hc, dealerLoop_empty 0 d hc, rfl, by simp⟩
      · obtain ⟨rest, c, rfl⟩ := exists_append_of_ne_nil cards hne
        have hlen : (Deck.mk rest).cards.length < fuel := by
          simp at hfuel
          simpa using hfuel
        obtain ⟨r, d1, deck1, h1, h2, h3, h4⟩ :=
          ih { d with toPlayer := { d.toPlayer with hand := d.hand ++ [c] } } ⟨rest⟩ hlen
        refine ⟨r, d1, deck1, ?_, ?_, h3, h4⟩
        · rw [dealerLoop_draw fuel d rest c hc, h1]
        · have e : (Deck.mk (rest ++ [c])).cards.length + 1 = (rest.length + 1) + 1 := by simp
          rw [e, dealerLoop_draw (rest.length + 1) d rest c hc]
          exact h2
    · have hc0 : (d.mustDrawCard && !d.isBusted) = false := by simpa using hc
      exact ⟨_, _, _, dealerLoop_stop fuel d deck hc0, dealerLoop_stop _ d deck hc0, rfl,
        fun _ => hc0⟩

/-- C10: `Game::dealerTurn` terminates for every strategy, dealer hand and deck
(its loop ends within one more test than the deck has cards, with the same
result for any larger bound); if it ends without the deck running out, the
final score of the dealer is in `[T, 21]` or above 21, `T` being the threshold
of the strategy; and when the initial score is already at least `T` nothing is
drawn: the dealer and the deck are unchanged. -/
theorem dealerTurn_terminates_at_threshold (g : Game) :
    ∃ r g1, g.dealerTurn = some (r, g1) ∧
      (∀ fuel, g.deck.cards.length < fuel →
        dealerLoop fuel g.dealer g.deck = some (r, g1.dealer, g1.deck)) ∧
      g1.players = g.players ∧
      (r = Except.ok () →
        (g.dealer.strategy.threshold ≤ g1.dealer.calculateScore ∧ g1.dealer.calculateScore ≤ 21) ∨
          21 < g1.dealer.calculateScore) ∧
      (g.dealer.strategy.threshold ≤ g.dealer.calculateScore → r = Except.ok () ∧ g1 = g) := by
  obtain ⟨r, d1, deck1, _, h2, h3, h4⟩ :=
    dealerLoop_spec (g.deck.cards.length + 1) g.dealer g.deck (by omega)
  refine ⟨r, { g with dealer := d1, deck := deck1 }, ?_, ?_, rfl, ?_, ?_⟩
  · simp [Game.dealerTurn, h2]
  · intro fuel hfuel
    obtain ⟨r2, d2, deck2, k1, k2, _, _⟩ := dealerLoop_spec fuel g.dealer g.deck hfuel
    rw [k1, ← k2, h2]
  · intro hr
    have h := h4 hr
    rw [mustDrawCard_eq, h3] at h
    simp only [Player.isBusted, Bool.and_eq_false_imp, decide_eq_true_eq, Bool.not_eq_false_eq_eq_true] at h
    simp only
    by_cases hb : d1.calculateScore ≤ 21
    · left
      refine ⟨?_, hb⟩
      by_contra hlt
      have := h (by omega)
      simp at this
      omega
    · right; omega
  · intro hT
    have hc0 : (g.dealer.mustDrawCard && !g.dealer.isBusted) = false := by
      rw [mustDrawCard_eq]
      have : ¬ (g.dealer.calculateScore ≤ g.dealer.strategy.threshold - 1) := by omega
      simp [this]
    rw [dealerLoop_stop _ g.dealer g.deck hc0] at h2
    simp only [Option.some.injEq, Prod.mk.injEq] at h2
    obtain ⟨e1, e2, e3⟩ := h2
    subst e1 e2 e3
    exact ⟨rfl, rfl⟩

/-- Witness for C10: a Standard dealer holding Ten and Six in a game with a
fresh deck. -/
theorem dealerTurn_terminates_at_threshold_witness :
    ∃ r g1,
      (Game.mk Deck.new []
        { Dealer.new with hand := [⟨Suit.Clubs, Rank.Ten⟩, ⟨Suit.Hearts, Rank.Six⟩] }).dealerTurn =
        some (r, g1) ∧
      (r = Except.ok () → (17 ≤ g1.dealer.calculateScore ∧ g1.dealer.calculateScore ≤ 21) ∨
          21 < g1.dealer.calculateScore) := by
  obtain ⟨r, g1, h1, _, _, h4, _⟩ := dealerTurn_terminates_at_threshold
    (Game.mk Deck.new []
      { Dealer.new with hand := [⟨Suit.Clubs, Rank.Ten⟩, ⟨Suit.Hearts, Rank.Six⟩] })
  exact ⟨r, g1, h1, h4⟩

/-! ### Card budget of a round -/

theorem hardTotal_snoc (rest : List Card) (c : Card) :
    hardTotal (rest ++ [c]) = hardTotal rest + c.getValue := by
  simp [hardTotal]

theorem exists_append_of_hardTotal_pos (cards : List Card) (h : 0 < hardTotal cards) :
    ∃ rest c, cards = rest ++ [c] := by
  apply exists_append_of_ne_nil
  intro h0
  rw [h0] at h
  simp [hardTotal] at h

theorem hardTotal_le_handScore (hand : List Card) : hardTotal hand ≤ handScore hand := by
  rw [handScore_closed]
  split
  · omega
  · omega

theorem hardTotal_le_of_not_busted (p : Player) (h : p.isBusted = false) :
    hardTotal p.hand ≤ 21 := by
  have h1 := hardTotal_le_handScore p.hand
  simp only [Player.isBusted, Player.calculateScore, decide_eq_false_iff_not] at h
  omega

theorem hardTotal_le_of_length_two (hand : List Card) (h : hand.length = 2) :
    hardTotal hand ≤ 20 := by
  match hand, h with
  | [a, b], _ =>
    have ha := getValue_bounds a
    have hb := getValue_bounds b
    simp only [hardTotal, List.map_cons, List.map_nil, List.sum_cons, List.sum_nil]
    omega

theorem canSplit_of_convert (p : Player) (choice : Int)
    (h : p.convertChoiceToAction choice = PlayerAction.Split) : p.canSplit = true := by
  unfold Player.convertChoiceToAction at h
  split_ifs at h
  simp_all

theorem exists_pair_of_canSplit (p : Player) (h : p.canSplit = true) :
    ∃ first second, p.hand = [first, second] ∧ first.getValue = second.getValue := by
  unfold Player.canSplit at h
  split at h
  · next first second heq => exact ⟨first, second, heq, by simpa using h⟩
  · simp at h

theorem playerTurnLoop_busted (src : Nat → Int) (fuel : Nat) (s : TurnState)
    (hb : s.player.isBusted = true) :
    playerTurnLoop src (fuel + 1) s = some (Except.ok (), s) := by
  simp [playerTurnLoop, Player.getPlayerAction, hb]

theorem playerTurnLoop_stand (src : Nat → Int) (fuel : Nat) (s : TurnState)
    (hb : s.player.isBusted = false)
    (ha : s.player.convertChoiceToAction (src s.pos) = PlayerAction.Stand ∨
      s.player.convertChoiceToAction (src s.pos) = PlayerAction.DoubleDown) :
    playerTurnLoop src (fuel + 1) s = some (Except.ok (), { s with pos := s.pos + 1 }) := by
  rcases ha with ha | ha <;> simp [playerTurnLoop, Player.getPlayerAction, hb, ha]

theorem playerTurnLoop_hit (src : Nat → Int) (fuel : Nat) (s : TurnState)
    (rest : List Card) (c : Card)
    (hb : s.player.isBusted = false)
    (ha : s.player.convertChoiceToAction (src s.pos) = PlayerAction.Hit)
    (hd : s.deck = ⟨rest ++ [c]⟩) :
    playerTurnLoop src (fuel + 1) s =
      playerTurnLoop src fuel
        ⟨{ s.player with hand := s.player.hand ++ [c] }, ⟨rest⟩, s.newSplitPlayers, s.pos + 1⟩ := by
  simp [playerTurnLoop, Player.getPlayerAction, hb, ha, hd, takeCard_append]

theorem playerTurnLoop_split (src : Nat → Int) (fuel : Nat) (s : TurnState)
    (first second d1 d2 d3 : Card) (rest : List Card)
    (hb : s.player.isBusted = false)
    (ha : s.player.convertChoiceToAction (src s.pos) = PlayerAction.Split)
    (hhand : s.player.hand = [first, second]) (hval : first.getValue = second.getValue)
    (hd : s.deck = ⟨rest ++ [d3, d2, d1]⟩) :
    playerTurnLoop src (fuel + 1) s =
      playerTurnLoop src fuel
        ⟨{ s.player with hand := [first, d1, d2] }, ⟨rest⟩,
          s.newSplitPlayers ++ [(Player.new (s.player.name ++ " (Split)")).setHand [second, d3]],
          s.pos + 1⟩ := by
  have hs := handleSplit_eq s.player s.newSplitPlayers first second d1 d2 d3 rest hhand hval
  simp [playerTurnLoop, Player.getPlayerAction, hb, ha, hd, hs.1, hs.2]

/-- One player's turn never runs the deck out when the deck still holds the
value the turn can take: it ends normally, and takes at most `turnPotential`
off the hard total of the deck. -/
theorem playerTurnLoop_ok (src : Nat → Int) (fuel : Nat) (s : TurnState)
    (hfuel : s.deck.cards.length < fuel) (hlen : 2 ≤ s.player.hand.length)
    (h31 : hardTotal s.player.hand ≤ 31)
    (hdeck : turnPotential s.player ≤ hardTotal s.deck.cards) :
    ∃ s1, playerTurnLoop src fuel s = some (Except.ok (), s1) ∧
      hardTotal s.deck.cards ≤ hardTotal s1.deck.cards + turnPotential s.player := by
  induction fuel generalizing s with
  | zero => omega
  | succ fuel ih =>
    have hpot : 31 - hardTotal s.player.hand ≤ turnPotential s.player := by
      unfold turnPotential
      split <;> omega
    by_cases hb : s.player.isBusted = true
    · exact ⟨s, playerTurnLoop_busted src fuel s hb, by omega⟩
    · have hb0 : s.player.isBusted = false := by simpa using hb
      have h21 := hardTotal_le_of_not_busted s.player hb0
      cases ha : s.player.convertChoiceToAction (src s.pos) with
      | Stand =>
        exact ⟨_, playerTurnLoop_stand src fuel s hb0 (Or.inl ha), by simp only; omega⟩
      | DoubleDown =>
        exact ⟨_, playerTurnLoop_stand src fuel s hb0 (Or.inr ha), by simp only; omega⟩
      | Hit =>
        obtain ⟨rest, c, hc⟩ := exists_append_of_hardTotal_pos s.deck.cards (by omega)
        have hd : s.deck = ⟨rest ++ [c]⟩ := by rw [← hc]
        have hcv := getValue_bounds c
        have hD : hardTotal s.deck.cards = hardTotal rest + c.getValue := by
          rw [hc, hardTotal_snoc]
        have hL : s.deck.cards.length = rest.length + 1 := by rw [hc]; simp
        have hpot2 : turnPotential { s.player with hand := s.player.hand ++ [c] } =
            31 - (hardTotal s.player.hand + c.getValue) := by
          unfold turnPotential
          have : ¬ ((s.player.hand ++ [c]).length = 2) := by simp; omega
          simp only [this, if_false, hardTotal_snoc]
          omega
        obtain ⟨s1, h1, h2⟩ := ih
          ⟨{ s.player with hand := s.player.hand ++ [c] }, ⟨rest⟩, s.newSplitPlayers, s.pos + 1⟩
          (by simp only; omega) (by simp; omega)
          (by simp only [hardTotal_snoc]; omega) (by rw [hpot2]; simp only; omega)
        refine ⟨s1, ?_, ?_⟩
        · rw [playerTurnLoop_hit src fuel s rest c hb0 ha hd, h1]
        · rw [hpot2] at h2
          simp only at h2
          omega
      | Split =>
        obtain ⟨first, second, hhand, hval⟩ :=
          exists_pair_of_canSplit s.player (canSplit_of_convert s.player _ ha)
        have hf := getValue_bounds first
        have hs := getValue_bounds second
        have hh : hardTotal s.player.hand = first.getValue + second.getValue := by
          rw [hhand]; simp [hardTotal]
        have hp : turnPotential s.player = 51 - (first.getValue + second.getValue) := by
          unfold turnPotential
          rw [hh, hhand]
          simp
          omega
        obtain ⟨r1, d1, hc1⟩ := exists_append_of_hardTotal_pos s.deck.cards (by omega)
        have hD1 : hardTotal s.deck.cards = hardTotal r1 + d1.getValue := by
          rw [hc1, hardTotal_snoc]
        have hv1 := getValue_bounds d1
        obtain ⟨r2, d2, hc2⟩ := exists_append_of_hardTotal_pos r1 (by omega)
        have hD2 : hardTotal r1 = hardTotal r2 + d2.getValue := by
          rw [hc2, hardTotal_snoc]
        have hv2 := getValue_bounds d2
        obtain ⟨rest, d3, hc3⟩ := exists_append_of_hardTotal_pos r2 (by omega)
        have hD3 : hardTotal r2 = hardTotal rest + d3.getValue := by
          rw [hc3, hardTotal_snoc]
        have hv3 := getValue_bounds d3
        have hcards : s.deck.cards = rest ++ [d3, d2, d1] := by
          rw [hc1, hc2, hc3]; simp
        have hd : s.deck = ⟨rest ++ [d3, d2, d1]⟩ := by rw [← hcards]
        have hL : s.deck.cards.length = rest.length + 3 := by rw [hcards]; simp
        have hpot2 : turnPotential { s.player with hand := [first, d1, d2] } =
            31 - (first.getValue + d1.getValue + d2.getValue) := by
          simp [turnPotential, hardTotal]
          omega
        obtain ⟨s1, h1, h2⟩ := ih
          ⟨{ s.player with hand := [first, d1, d2] }, ⟨rest⟩,
            s.newSplitPlayers ++ [(Player.new (s.player.name ++ " (Split)")).setHand [second, d3]],
            s.pos + 1⟩
          (by simp only; omega) (by simp)
          (by simp [hardTotal]; omega) (by rw [hpot2]; simp only; omega)
        refine ⟨s1, ?_, ?_⟩
        · rw [playerTurnLoop_split src fuel s first second d1 d2 d3 rest hb0 ha hhand hval hd, h1]
        · rw [hpot2] at h2
          simp only at h2
          omega

theorem takeCard_of_hardTotal_pos (p : Player) (deck : Deck) (h : 0 < hardTotal deck.cards) :
    ∃ rest c, deck.cards = rest ++ [c] ∧
      p.takeCard deck = (Except.ok (), { p with hand := p.hand ++ [c] }, ⟨rest⟩) := by
  obtain ⟨rest, c, hc⟩ := exists_append_of_hardTotal_pos deck.cards h
  refine ⟨rest, c, hc, ?_⟩
  have hd : deck = ⟨rest ++ [c]⟩ := by rw [← hc]
  rw [hd, takeCard_append]

/-- The first loop of `Game::dealInitialCards` succeeds when the deck holds
more than 20 points per player, gives every player two cards and takes at most
20 points per player off the deck. -/
theorem dealPlayers_ok (ps : List Player) (deck : Deck)
    (hempty : ∀ p ∈ ps, p.hand = [])
    (hdeck : 20 * (ps.length : Int) < hardTotal deck.cards) :
    ∃ ps1 deck1, dealPlayers ps deck = (Except.ok (), ps1, deck1) ∧
      (∀ p ∈ ps1, p.hand.length = 2) ∧ ps1.length = ps.length ∧
      hardTotal deck.cards ≤ hardTotal deck1.cards + 20 * (ps.length : Int) := by
  induction ps generalizing deck with
  | nil => exact ⟨[], deck, rfl, by simp, rfl, by simp⟩
  | cons p rest ih =>
    simp only [List.length_cons, Nat.cast_add, Nat.cast_one] at hdeck
    have hp : p.hand = [] := hempty p (List.mem_cons_self _ _)
    obtain ⟨r1, c1, hc1, ht1⟩ := takeCard_of_hardTotal_pos p deck (by omega)
    have hv1 := getValue_bounds c1
    have hD1 : hardTotal deck.cards = hardTotal r1 + c1.getValue := by rw [hc1, hardTotal_snoc]
    obtain ⟨r2, c2, hc2, ht2⟩ :=
      takeCard_of_hardTotal_pos { p with hand := p.hand ++ [c1] } ⟨r1⟩ (by simp only; omega)
    have hv2 := getValue_bounds c2
    have hD2 : hardTotal r1 = hardTotal r2 + c2.getValue := by
      simp only at hc2
      rw [hc2, hardTotal_snoc]
    obtain ⟨ps1, deck1, h1, h2, h3, h4⟩ :=
      ih ⟨r2⟩ (fun q hq => hempty q (List.mem_cons_of_mem _ hq)) (by simp only; omega)
    refine ⟨({ p with hand := p.hand ++ [c1] ++ [c2] } : Player) :: ps1, deck1, ?_, ?_, ?_, ?_⟩
    · simp only [dealPlayers, ht1, ht2, h1]
    · intro q hq
      rcases List.mem_cons.1 hq with rfl | hq
      · simp [hp]
      · exact h2 q hq
    · simp [h3]
    · simp only [List.length_cons, Nat.cast_add, Nat.cast_one]
      simp only at h4
      omega

/-- The roster loop of `Game::playerTurns` ends normally when every player
starts with two cards and the deck holds 51 points per player; it takes at
most 51 points per player off the deck. -/
theorem playerTurnsFrom_ok (src : Nat → Int) (ps : List Player) (deck : Deck)
    (splits : List Player) (pos : Nat)
    (htwo : ∀ p ∈ ps, p.hand.length = 2)
    (hdeck : 51 * (ps.length : Int) ≤ hardTotal deck.cards) :
    ∃ ps1 deck1 splits1 pos1,
      playerTurnsFrom src ps deck splits pos = some (Except.ok (), ps1, deck1, splits1, pos1) ∧
      hardTotal deck.cards ≤ hardTotal deck1.cards + 51 * (ps.length : Int) := by
  induction ps generalizing deck splits pos with
  | nil => exact ⟨[], deck, splits, pos, rfl, by simp⟩
  | cons p rest ih =>
    simp only [List.length_cons, Nat.cast_add, Nat.cast_one] at hdeck
    have hp : p.hand.length = 2 := htwo p (List.mem_cons_self _ _)
    have h20 := hardTotal_le_of_length_two p.hand hp
    have h0 := hardTotal_nonneg p.hand
    have hpot : turnPotential p = 51 - hardTotal p.hand := by
      simp [turnPotential, hp]
      omega
    obtain ⟨s1, k1, k2⟩ := playerTurnLoop_ok src (deck.cards.length + 1) ⟨p, deck, splits, pos⟩
      (by simp) (by simp [hp]) (by simp only; omega) (by simp only; omega)
    simp only at k2
    obtain ⟨ps1, deck1, splits1, pos1, j1, j2⟩ :=
      ih s1.deck s1.newSplitPlayers s1.pos (fun q hq => htwo q (List.mem_cons_of_mem _ hq))
        (by omega)
    refine ⟨s1.player :: ps1, deck1, splits1, pos1, ?_, ?_⟩
    · simp only [playerTurnsFrom, k1, j1]
    · simp only [List.length_cons, Nat.cast_add, Nat.cast_one]
      omega

/-- The dealer loop never runs the deck out when the hard totals of the deck
and of the dealer's hand add up to at least 27: the dealer draws only on a
score of at most 17. -/
theorem dealerLoop_ok (fuel : Nat) (d : Dealer) (deck : Deck)
    (hfuel : deck.cards.length < fuel)
    (hdeck : 27 ≤ hardTotal deck.cards + hardTotal d.hand) :
    ∃ d1 deck1, dealerLoop fuel d deck = some (Except.ok (), d1, deck1) := by
  induction fuel generalizing d deck with
  | zero => omega
  | succ fuel ih =>
    by_cases hc : (d.mustDrawCard && !d.isBusted) = true
    · have hm : d.mustDrawCard = true := by
        simp only [Bool.and_eq_true] at hc
        exact hc.1
      rw [mustDrawCard_eq] at hm
      have hT : d.strategy.threshold ≤ 18 := by
        cases d.strategy <;> simp [DealerStrategy.threshold]
      have hs := hardTotal_le_handScore d.hand
      have hscore : handScore d.hand ≤ 17 := by
        simp only [Player.calculateScore, decide_eq_true_eq] at hm
        omega
      obtain ⟨rest, c, hcards⟩ := exists_append_of_hardTotal_pos deck.cards (by omega)
      have hd : deck = ⟨rest ++ [c]⟩ := by rw [← hcards]
      have hD : hardTotal deck.cards = hardTotal rest + c.getValue := by
        rw [hcards, hardTotal_snoc]
      have hL : deck.cards.length = rest.length + 1 := by rw [hcards]; simp
      obtain ⟨d1, deck1, h1⟩ :=
        ih { d with toPlayer := { d.toPlayer with hand := d.hand ++ [c] } } ⟨rest⟩
          (by simp only; omega) (by simp only [hardTotal_snoc]; omega)
      refine ⟨d1, deck1, ?_⟩
      rw [hd, dealerLoop_draw fuel d rest c hc, h1]
    · have hc0 : (d.mustDrawCard && !d.isBusted) = false := by simpa using hc
      exact ⟨d, deck, dealerLoop_stop fuel d deck hc0⟩

theorem hardTotal_newDeck : hardTotal Deck.new.cards = 340 := by
  decide

theorem hardTotal_perm (xs ys : List Card) (h : xs.Perm ys) : hardTotal xs = hardTotal ys :=
  (h.map Card.getValue).sum_eq

/-- The initial deal succeeds when the deck holds more than 20 points per
participant (players and dealer); every player then holds two cards, and at
most 20 points per participant have left the deck. -/
theorem dealInitialCards_ok (g : Game) (hempty : ∀ p ∈ g.players, p.hand = [])
    (hdeck : 20 * ((g.players.length : Int) + 1) < hardTotal g.deck.cards) :
    ∃ g1, g.dealInitialCards = (Except.ok (), g1) ∧
      (∀ p ∈ g1.players, p.hand.length = 2) ∧ g1.players.length = g.players.length ∧
      g1.dealer.strategy = g.dealer.strategy ∧
      hardTotal g.deck.cards ≤ hardTotal g1.deck.cards + 20 * ((g.players.length : Int) + 1) := by
  obtain ⟨ps1, deck1, h1, h2, h3, h4⟩ := dealPlayers_ok g.players g.deck hempty (by omega)
  obtain ⟨r1, c1, hc1, ht1⟩ := takeCard_of_hardTotal_pos g.dealer.toPlayer deck1 (by omega)
  have hv1 := getValue_bounds c1
  have hD1 : hardTotal deck1.cards = hardTotal r1 + c1.getValue := by rw [hc1, hardTotal_snoc]
  obtain ⟨r2, c2, hc2, ht2⟩ :=
    takeCard_of_hardTotal_pos { g.dealer.toPlayer with hand := g.dealer.hand ++ [c1] } ⟨r1⟩
      (by simp only; omega)
  have hv2 := getValue_bounds c2
  have hD2 : hardTotal r1 = hardTotal r2 + c2.getValue := by
    simp only at hc2
    rw [hc2, hardTotal_snoc]
  refine ⟨{ players := ps1, deck := ⟨r2⟩,
            dealer := { g.dealer with
              toPlayer := { g.dealer.toPlayer with hand := g.dealer.hand ++ [c1] ++ [c2] } } },
    ?_, h2, h3, rfl, ?_⟩
  · simp only [Game.dealInitialCards, h1, Dealer.takeCard, ht1, ht2]
  · simp only
    omega

/-- C5: round of `Game::playRound` started on a freshly constructed deck in any
shuffled order, with at most four players (so with one to four) whose hands
are empty, ends normally for every dealer strategy and every sequence of
console choices: no `drawCard` of the round throws, and the loops of the round
end on their own. -/
theorem playRound_never_exhausts_deck (g : Game) (order : List Card)
    (h : order.Perm g.deck.cards) (src : Nat → Int) (pos : Nat)
    (hdeck : g.deck = Deck.new) (hn : g.players.length ≤ 4)
    (hhands : ∀ p ∈ g.players, p.hand = []) :
    ∃ g1 pos1, g.playRound order h src pos = some (Except.ok (), g1, pos1) := by
  have h340 : hardTotal order = 340 := by
    rw [hardTotal_perm order g.deck.cards h, hdeck, hardTotal_newDeck]
  have hnI : (g.players.length : Int) ≤ 4 := by exact_mod_cast hn
  obtain ⟨g1, hdeal, htwo, hlen, _, hD1⟩ :=
    dealInitialCards_ok { g with deck := g.deck.shuffle order h } hhands
      (by simp only [Deck.shuffle]; omega)
  simp only [Deck.shuffle] at hD1
  have hlenI : (g1.players.length : Int) ≤ 4 := by rw [hlen]; exact hnI
  obtain ⟨ps2, deck2, splits2, pos2, hturns, hD2⟩ :=
    playerTurnsFrom_ok src g1.players g1.deck [] pos htwo (by omega)
  have hdealer0 := hardTotal_nonneg g1.dealer.hand
  obtain ⟨d3, deck3, hloop⟩ :=
    dealerLoop_ok (deck2.cards.length + 1) g1.dealer deck2 (by omega) (by omega)
  refine ⟨Game.determineWinner { players := ps2 ++ splits2, deck := deck3, dealer := d3 }, pos2, ?_⟩
  simp only [Game.playRound, hdeal, Game.playerTurns, hturns, Game.dealerTurn, hloop]

/-- Witness for C5: one player who always asks for a card, standard dealer,
fresh deck left in construction order. -/
theorem playRound_never_exhausts_deck_witness :
    (Game.mk Deck.new [Player.new "Ann"] Dealer.new).deck = Deck.new ∧
    (Game.mk Deck.new [Player.new "Ann"] Dealer.new).players.length ≤ 4 ∧
    (∀ p ∈ (Game.mk Deck.new [Player.new "Ann"] Dealer.new).players, p.hand = []) ∧
    ∃ g1 pos1,
      (Game.mk Deck.new [Player.new "Ann"] Dealer.new).playRound Deck.new.cards
        (List.Perm.refl _) (fun _ => 1) 0 = some (Except.ok (), g1, pos1) :=
  ⟨rfl, by decide, by simp [Player.new],
    playRound_never_exhausts_deck (Game.mk Deck.new [Player.new "Ann"] Dealer.new) Deck.new.cards
      (List.Perm.refl _) (fun _ => 1) 0 rfl (by decide) (by simp [Player.new])⟩

/-! ### Split and double-down eligibility -/

theorem canSplit_iff (p : Player) :
    p.canSplit = true ↔ ∃ first second, p.hand = [first, second] ∧ first.getValue = second.getValue := by
  constructor
  · exact exists_pair_of_canSplit p
  · rintro ⟨first, second, hh, hv⟩
    simp [Player.canSplit, hh, hv]

/-- C11: `Player::canSplit` is true exactly when the hand has two cards and the
two have equal Blackjack values, whatever their ranks: it is true for the Ten
of Spades with the King of Hearts and false for the Seven with the Eight of
Clubs. -/
theorem canSplit_iff_two_cards_of_equal_value (p : Player) :
    (p.canSplit = true ↔
      p.hand.length = 2 ∧
        ∃ first second, p.hand = [first, second] ∧ first.getValue = second.getValue) ∧
    (p.hand = [⟨Suit.Spades, Rank.Ten⟩, ⟨Suit.Hearts, Rank.King⟩] → p.canSplit = true) ∧
    (p.hand = [⟨Suit.Clubs, Rank.Seven⟩, ⟨Suit.Clubs, Rank.Eight⟩] → p.canSplit = false) := by
  refine ⟨?_, ?_, ?_⟩
  · rw [canSplit_iff]
    constructor
    · rintro ⟨first, second, hh, hv⟩
      exact ⟨by rw [hh]; rfl, first, second, hh, hv⟩
    · rintro ⟨_, h⟩
      exact h
  · intro hq
    simp [Player.canSplit, hq, Card.getValue, Rank.toInt]
  · intro hq
    simp [Player.canSplit, hq, Card.getValue, Rank.toInt]

/-- Witness for C11: the two hands named by the claim. -/
theorem canSplit_iff_two_cards_of_equal_value_witness :
    (Player.withHand "Ann" [⟨Suit.Spades, Rank.Ten⟩, ⟨Suit.Hearts, Rank.King⟩]).canSplit = true ∧
    (Player.withHand "Bob" [⟨Suit.Clubs, Rank.Seven⟩, ⟨Suit.Clubs, Rank.Eight⟩]).canSplit = false :=
  ⟨(canSplit_iff_two_cards_of_equal_value
      (Player.withHand "Ann" [⟨Suit.Spades, Rank.Ten⟩, ⟨Suit.Hearts, Rank.King⟩])).2.1 rfl,
   (canSplit_iff_two_cards_of_equal_value
      (Player.withHand "Bob" [⟨Suit.Clubs, Rank.Seven⟩, ⟨Suit.Clubs, Rank.Eight⟩])).2.2 rfl⟩

/-- C18: `Player::convertChoiceToAction` gives `DoubleDown` only when
`canDoubleDown()` holds and `Split` only when `canSplit()` holds; choice 1 is
`Hit`, choice 2 is `Stand`, choice 3 without `canDoubleDown()` is `Hit`, choice
4 without `canSplit()` is `Hit`, and every choice outside 1..4 is `Hit`. -/
theorem convertChoiceToAction_fallback (p : Player) (choice : Int) :
    (p.convertChoiceToAction choice = PlayerAction.DoubleDown → p.canDoubleDown = true) ∧
    (p.convertChoiceToAction choice = PlayerAction.Split → p.canSplit = true) ∧
    p.convertChoiceToAction 1 = PlayerAction.Hit ∧
    p.convertChoiceToAction 2 = PlayerAction.Stand ∧
    (p.canDoubleDown = true → p.convertChoiceToAction 3 = PlayerAction.DoubleDown) ∧
    (p.canDoubleDown = false → p.convertChoiceToAction 3 = PlayerAction.Hit) ∧
    (p.canSplit = true → p.convertChoiceToAction 4 = PlayerAction.Split) ∧
    (p.canSplit = false → p.convertChoiceToAction 4 = PlayerAction.Hit) ∧
    ((choice < 1 ∨ 4 < choice) → p.convertChoiceToAction choice = PlayerAction.Hit) := by
  refine ⟨?_, canSplit_of_convert p choice, ?_, ?_, ?_, ?_, ?_, ?_, ?_⟩
  · intro h
    unfold Player.convertChoiceToAction at h
    split_ifs at h
    assumption
  · simp [Player.convertChoiceToAction]
  · simp [Player.convertChoiceToAction]
  · intro h
    simp [Player.convertChoiceToAction, h]
  · intro h
    simp [Player.convertChoiceToAction, h]
  · intro h
    simp [Player.convertChoiceToAction, h]
  · intro h
    simp [Player.convertChoiceToAction, h]
  · intro h
    have h1 : choice ≠ 1 := by omega
    have h2 : choice ≠ 2 := by omega
    have h3 : choice ≠ 3 := by omega
    have h4 : choice ≠ 4 := by omega
    simp [Player.convertChoiceToAction, h1, h2, h3, h4]

/-- Witness for C18: holder of three cards who asks for `DoubleDown` (3), for
`Split` (4) or enters 7 gets `Hit`. -/
theorem convertChoiceToAction_fallback_witness :
    (Player.withHand "Ann"
        [⟨Suit.Clubs, Rank.Two⟩, ⟨Suit.Clubs, Rank.Three⟩, ⟨Suit.Clubs, Rank.Four⟩]).convertChoiceToAction 3 =
      PlayerAction.Hit ∧
    (Player.withHand "Ann"
        [⟨Suit.Clubs, Rank.Two⟩, ⟨Suit.Clubs, Rank.Three⟩, ⟨Suit.Clubs, Rank.Four⟩]).convertChoiceToAction 4 =
      PlayerAction.Hit ∧
    (Player.withHand "Ann"
        [⟨Suit.Clubs, Rank.Two⟩, ⟨Suit.Clubs, Rank.Three⟩, ⟨Suit.Clubs, Rank.Four⟩]).convertChoiceToAction 7 =
      PlayerAction.Hit :=
  ⟨(convertChoiceToAction_fallback (Player.withHand "Ann"
        [⟨Suit.Clubs, Rank.Two⟩, ⟨Suit.Clubs, Rank.Three⟩, ⟨Suit.Clubs, Rank.Four⟩]) 3).2.2.2.2.2.1 rfl,
   (convertChoiceToAction_fallback (Player.withHand "Ann"
        [⟨Suit.Clubs, Rank.Two⟩, ⟨Suit.Clubs, Rank.Three⟩, ⟨Suit.Clubs, Rank.Four⟩]) 4).2.2.2.2.2.2.2.1 rfl,
   (convertChoiceToAction_fallback (Player.withHand "Ann"
        [⟨Suit.Clubs, Rank.Two⟩, ⟨Suit.Clubs, Rank.Three⟩, ⟨Suit.Clubs, Rank.Four⟩]) 7).2.2.2.2.2.2.2.2
      (Or.inr (by decide))⟩

/-- C19: for a player who cannot split, `Player::splitHand` returns an empty
hand and leaves the player and the deck as they were, and `Game::handleSplit`
leaves the player, the deck and the list of split participants as they were. -/
theorem split_without_canSplit_is_noop (p : Player) (deck : Deck) (splits : List Player)
    (h : p.canSplit = false) :
    p.splitHand deck = (Except.ok [], p, deck) ∧
    handleSplit p deck splits = (Except.ok (), p, deck, splits) := by
  constructor
  · simp [Player.splitHand, h]
  · simp [handleSplit, h]

/-- Witness for C19: a Seven and an Eight cannot be split; nothing moves. -/
theorem split_without_canSplit_is_noop_witness :
    (Player.withHand "Bob" [⟨Suit.Clubs, Rank.Seven⟩, ⟨Suit.Clubs, Rank.Eight⟩]).canSplit = false ∧
    (Player.withHand "Bob" [⟨Suit.Clubs, Rank.Seven⟩, ⟨Suit.Clubs, Rank.Eight⟩]).splitHand Deck.new =
      (Except.ok [], Player.withHand "Bob" [⟨Suit.Clubs, Rank.Seven⟩, ⟨Suit.Clubs, Rank.Eight⟩],
        Deck.new) ∧
    handleSplit (Player.withHand "Bob" [⟨Suit.Clubs, Rank.Seven⟩, ⟨Suit.Clubs, Rank.Eight⟩])
        Deck.new [] =
      (Except.ok (), Player.withHand "Bob" [⟨Suit.Clubs, Rank.Seven⟩, ⟨Suit.Clubs, Rank.Eight⟩],
        Deck.new, []) :=
  ⟨rfl, split_without_canSplit_is_noop
    (Player.withHand "Bob" [⟨Suit.Clubs, Rank.Seven⟩, ⟨Suit.Clubs, Rank.Eight⟩]) Deck.new [] rfl⟩

/-! ### Order of the cards -/

theorem aceCount_perm (xs ys : List Card) (h : xs.Perm ys) : aceCount xs = aceCount ys :=
  h.countP_eq Card.isAce

/-- C16: `Player::calculateScore` does not depend on the order of the cards:
two players whose hands are rearrangements of each other have equal scores. -/
theorem calculateScore_perm (p q : Player) (h : p.hand.Perm q.hand) :
    p.calculateScore = q.calculateScore := by
  unfold Player.calculateScore
  rw [handScore_closed, handScore_closed, hardTotal_perm _ _ h, aceCount_perm _ _ h]

/-- Witness for C16: Ace, Nine, Five scores 15 in this order and reversed. -/
theorem calculateScore_perm_witness :
    (Player.withHand "Ann"
        [⟨Suit.Spades, Rank.Ace⟩, ⟨Suit.Hearts, Rank.Nine⟩, ⟨Suit.Clubs, Rank.Five⟩]).calculateScore =
      (Player.withHand "Ann"
        [⟨Suit.Clubs, Rank.Five⟩, ⟨Suit.Hearts, Rank.Nine⟩, ⟨Suit.Spades, Rank.Ace⟩]).calculateScore :=
  calculateScore_perm
    (Player.withHand "Ann"
      [⟨Suit.Spades, Rank.Ace⟩, ⟨Suit.Hearts, Rank.Nine⟩, ⟨Suit.Clubs, Rank.Five⟩])
    (Player.withHand "Ann"
      [⟨Suit.Clubs, Rank.Five⟩, ⟨Suit.Hearts, Rank.Nine⟩, ⟨Suit.Spades, Rank.Ace⟩])
    (List.reverse_perm _).symm

/-! ### A busted hand -/

theorem playerTurnsFrom_cons (src : Nat → Int) (p : Player) (rest : List Player) (deck : Deck)
    (splits : List Player) (pos : Nat) (s1 : TurnState)
    (h : playerTurnLoop src (deck.cards.length + 1) ⟨p, deck, splits, pos⟩ = some (Except.ok (), s1)) :
    playerTurnsFrom src (p :: rest) deck splits pos =
      (playerTurnsFrom src rest s1.deck s1.newSplitPlayers s1.pos).map
        (fun r => (r.1, s1.player :: r.2.1, r.2.2)) := by
  simp only [playerTurnsFrom, h]
  cases playerTurnsFrom src rest s1.deck s1.newSplitPlayers s1.pos with
  | none => rfl
  | some r => rfl

/-- C17: busted hand is terminal in the player turn loop.  For a busted player
`Player::getPlayerAction` returns `Stand` whatever the action source holds and
reads nothing from it, and the `while (true)` loop of `Game::playerTurns` is
left with the player, the deck and the split list unchanged.  A `Hit` or a
`Split` that busts the hand is followed by exactly that exit.  The roster loop
keeps the state a player's turn ended in while it runs the later turns, so no
card reaches the busted hand afterwards. -/
theorem busted_hand_is_terminal (src : Nat → Int) :
    (∀ s : TurnState, s.player.isBusted = true →
      (∀ other : Nat → Int, s.player.getPlayerAction other s.pos = (PlayerAction.Stand, s.pos)) ∧
      (∀ fuel, playerTurnLoop src (fuel + 1) s = some (Except.ok (), s))) ∧
    (∀ (s : TurnState) (rest : List Card) (c : Card) (fuel : Nat),
      s.player.isBusted = false →
      s.player.convertChoiceToAction (src s.pos) = PlayerAction.Hit →
      s.deck = ⟨rest ++ [c]⟩ →
      Player.isBusted { s.player with hand := s.player.hand ++ [c] } = true →
      playerTurnLoop src (fuel + 2) s =
        some (Except.ok (),
          ⟨{ s.player with hand := s.player.hand ++ [c] }, ⟨rest⟩, s.newSplitPlayers, s.pos + 1⟩)) ∧
    (∀ (s : TurnState) (first second d1 d2 d3 : Card) (rest : List Card) (fuel : Nat),
      s.player.isBusted = false →
      s.player.convertChoiceToAction (src s.pos) = PlayerAction.Split →
      s.player.hand = [first, second] →
      s.deck = ⟨rest ++ [d3, d2, d1]⟩ →
      Player.isBusted { s.player with hand := [first, d1, d2] } = true →
      playerTurnLoop src (fuel + 2) s =
        some (Except.ok (),
          ⟨{ s.player with hand := [first, d1, d2] }, ⟨rest⟩,
            s.newSplitPlayers ++ [(Player.new (s.player.name ++ " (Split)")).setHand [second, d3]],
            s.pos + 1⟩)) ∧
    (∀ (p : Player) (others : List Player) (deck : Deck) (splits : List Player) (pos : Nat)
        (s1 : TurnState),
      playerTurnLoop src (deck.cards.length + 1) ⟨p, deck, splits, pos⟩ = some (Except.ok (), s1) →
      playerTurnsFrom src (p :: others) deck splits pos =
        (playerTurnsFrom src others s1.deck s1.newSplitPlayers s1.pos).map
          (fun r => (r.1, s1.player :: r.2.1, r.2.2))) := by
  refine ⟨?_, ?_, ?_, ?_⟩
  · intro s hb
    refine ⟨?_, fun fuel => playerTurnLoop_busted src fuel s hb⟩
    intro other
    simp [Player.getPlayerAction, hb]
  · intro s rest c fuel hb ha hd hbust
    rw [playerTurnLoop_hit src (fuel + 1) s rest c hb ha hd]
    exact playerTurnLoop_busted src fuel _ hbust
  · intro s first second d1 d2 d3 rest fuel hb ha hhand hd hbust
    obtain ⟨f2, s2, hh2, hv⟩ := exists_pair_of_canSplit s.player (canSplit_of_convert s.player _ ha)
    have hval : first.getValue = second.getValue := by
      rw [hhand] at hh2
      simp only [List.cons.injEq, and_true] at hh2
      obtain ⟨e1, e2⟩ := hh2
      rw [e1, e2]
      exact hv
    rw [playerTurnLoop_split src (fuel + 1) s first second d1 d2 d3 rest hb ha hhand hval hd]
    exact playerTurnLoop_busted src fuel _ hbust
  · intro p others deck splits pos s1 h
    exact playerTurnsFrom_cons src p others deck splits pos s1 h

/-- Witness for C17: holder of King, Queen and Five (25) is not asked, whatever
the source would answer, and the loop returns the state it was given. -/
theorem busted_hand_is_terminal_witness :
    (Player.withHand "Ann"
        [⟨Suit.Clubs, Rank.King⟩, ⟨Suit.Hearts, Rank.Queen⟩, ⟨Suit.Clubs, Rank.Five⟩]).isBusted = true ∧
    (∀ other : Nat → Int,
      (Player.withHand "Ann"
        [⟨Suit.Clubs, Rank.King⟩, ⟨Suit.Hearts, Rank.Queen⟩, ⟨Suit.Clubs, Rank.Five⟩]).getPlayerAction
          other 0 = (PlayerAction.Stand, 0)) ∧
    playerTurnLoop (fun _ => 1) 53
        ⟨Player.withHand "Ann"
          [⟨Suit.Clubs, Rank.King⟩, ⟨Suit.Hearts, Rank.Queen⟩, ⟨Suit.Clubs, Rank.Five⟩],
          Deck.new, [], 0⟩ =
      some (Except.ok (),
        ⟨Player.withHand "Ann"
          [⟨Suit.Clubs, Rank.King⟩, ⟨Suit.Hearts, Rank.Queen⟩, ⟨Suit.Clubs, Rank.Five⟩],
          Deck.new, [], 0⟩) :=
  ⟨by decide,
    ((busted_hand_is_terminal (fun _ => 1)).1
      ⟨Player.withHand "Ann"
        [⟨Suit.Clubs, Rank.King⟩, ⟨Suit.Hearts, Rank.Queen⟩, ⟨Suit.Clubs, Rank.Five⟩],
        Deck.new, [], 0⟩ (by decide)).1,
    ((busted_hand_is_terminal (fun _ => 1)).1
      ⟨Player.withHand "Ann"
        [⟨Suit.Clubs, Rank.King⟩, ⟨Suit.Hearts, Rank.Queen⟩, ⟨Suit.Clubs, Rank.Five⟩],
        Deck.new, [], 0⟩ (by decide)).2 52⟩

/-! ### Rounding to `double` -/

theorem roundHalfEven_le (n d y : Nat) (hd : 0 < d) (h : n ≤ y * d) : roundHalfEven n d ≤ y := by
  have hq : n / d ≤ y := Nat.div_le_of_le_mul (by rw [Nat.mul_comm]; exact h)
  have hdm := Nat.div_add_mod n d
  have hml := Nat.mod_lt n hd
  unfold roundHalfEven
  simp only
  by_cases h1 : 2 * (n % d) < d
  · simp [h1, hq]
  · have hr : 0 < n % d := by omega
    have hlt : n / d < y := by
      by_contra hge
      have hge' : y ≤ n / d := by omega
      have : y * d ≤ n / d * d := Nat.mul_le_mul_right d hge'
      have : d * (n / d) = n / d * d := Nat.mul_comm _ _
      omega
    simp only [h1, if_false]
    split_ifs <;> omega

theorem bitLengthAux_spec (fuel n : Nat) (h : n ≤ fuel) (hn : 0 < n) :
    2 ^ (bitLengthAux fuel n - 1) ≤ n ∧ n < 2 ^ bitLengthAux fuel n ∧ 0 < bitLengthAux fuel n := by
  induction fuel generalizing n with
  | zero => omega
  | succ fuel ih =>
    have hn0 : n ≠ 0 := by omega
    simp only [bitLengthAux, hn0, if_false, Nat.add_sub_cancel]
    by_cases h2 : n / 2 = 0
    · have h1 : n = 1 := by omega
      subst h1
      cases fuel <;> simp [bitLengthAux]
    · obtain ⟨a, b, c⟩ := ih (n / 2) (by omega) (by omega)
      refine ⟨?_, ?_, by omega⟩
      · have e : bitLengthAux fuel (n / 2) = (bitLengthAux fuel (n / 2) - 1) + 1 := by omega
        rw [e, pow_succ]
        omega
      · rw [pow_succ]
        omega

theorem bitLength_spec (n : Nat) (hn : 0 < n) :
    2 ^ (bitLength n - 1) ≤ n ∧ n < 2 ^ bitLength n ∧ 0 < bitLength n :=
  bitLengthAux_spec n n (le_refl n) hn

theorem floorLog2_le (n d j : Nat) (hn : 0 < n) (hd : 0 < d) (h : n ≤ d * 2 ^ j) :
    floorLog2 n d ≤ (j : Int) := by
  obtain ⟨a1, _, c1⟩ := bitLength_spec n hn
  obtain ⟨_, b2, _⟩ := bitLength_spec d hd
  have hlt : 2 ^ (bitLength n - 1) < 2 ^ (bitLength d + j) := by
    calc 2 ^ (bitLength n - 1) ≤ n := a1
      _ ≤ d * 2 ^ j := h
      _ < 2 ^ bitLength d * 2 ^ j := Nat.mul_lt_mul_of_pos_right b2 (by positivity)
      _ = 2 ^ (bitLength d + j) := (pow_add 2 _ _).symm
  have hexp : bitLength n - 1 < bitLength d + j := (Nat.pow_lt_pow_iff_right (by norm_num)).1 hlt
  unfold floorLog2
  simp only
  split_ifs <;> omega

theorem roundPos_le (n d Y j : Nat) (hn : 0 < n) (hd : 0 < d) (hY : n ≤ Y * d)
    (hj : n ≤ d * 2 ^ j) (hj50 : j ≤ 50) :
    (roundPos n d).2 < 0 ∧ (roundPos n d).1 ≤ Y * 2 ^ (-(roundPos n d).2).toNat := by
  have hfl := floorLog2_le n d j hn hd hj
  have he : floorLog2 n d - 52 ≤ -2 := by omega
  have hpos : (floorLog2 n d - 52).toNat = 0 := by omega
  have hm : roundHalfEven (n * 2 ^ (-(floorLog2 n d - 52)).toNat) (d * 2 ^ (floorLog2 n d - 52).toNat) ≤
      Y * 2 ^ (-(floorLog2 n d - 52)).toNat := by
    apply roundHalfEven_le
    · rw [hpos]; simpa using hd
    · rw [hpos, pow_zero, Nat.mul_one]
      calc n * 2 ^ (-(floorLog2 n d - 52)).toNat ≤ (Y * d) * 2 ^ (-(floorLog2 n d - 52)).toNat :=
            Nat.mul_le_mul_right _ hY
        _ = Y * 2 ^ (-(floorLog2 n d - 52)).toNat * d := by ring
  unfold roundPos
  simp only
  split
  · next heq =>
    refine ⟨by simp only; omega, ?_⟩
    simp only
    rw [heq] at hm
    have e1 : (-(floorLog2 n d - 52)).toNat = (-(floorLog2 n d - 52 + 1)).toNat + 1 := by omega
    rw [e1] at hm
    have e2 : (2 : Nat) ^ ((-(floorLog2 n d - 52 + 1)).toNat + 1) =
        2 ^ (-(floorLog2 n d - 52 + 1)).toNat * 2 := pow_succ 2 _
    rw [e2] at hm
    have h2 : 2 ^ 52 * 2 ≤ Y * 2 ^ (-(floorLog2 n d - 52 + 1)).toNat * 2 := by
      calc 2 ^ 52 * 2 = 2 ^ 53 := by norm_num
        _ ≤ Y * (2 ^ (-(floorLog2 n d - 52 + 1)).toNat * 2) := hm
        _ = Y * 2 ^ (-(floorLog2 n d - 52 + 1)).toNat * 2 := by ring
    exact Nat.le_of_mul_le_mul_right h2 (by norm_num)
  · exact ⟨by simp only; omega, hm⟩

theorem toRat_le_of_mant_le (m Y : Nat) (e : Int) (he : e < 0) (h : m ≤ Y * 2 ^ (-e).toNat) :
    Double.toRat ⟨(m : Int), e⟩ ≤ (Y : ℚ) ∧ 0 ≤ Double.toRat ⟨(m : Int), e⟩ := by
  have hz : (2 : ℚ) ^ e = ((2 : ℚ) ^ (-e).toNat)⁻¹ := by
    have : e = -((-e).toNat : Int) := by omega
    conv_lhs => rw [this]
    rw [zpow_neg, zpow_natCast]
  have hp : (0 : ℚ) < (2 : ℚ) ^ (-e).toNat := by positivity
  have hcast : (m : ℚ) ≤ (Y : ℚ) * (2 : ℚ) ^ (-e).toNat := by exact_mod_cast h
  simp only [Double.toRat, Int.cast_natCast, hz]
  constructor
  · rw [← div_eq_mul_inv, div_le_iff₀ hp]
    exact hcast
  · positivity

theorem round_bounds (m Y j : Nat) (e : Int) (he : e < 0) (hY : m ≤ Y * 2 ^ (-e).toNat)
    (hj : m ≤ 2 ^ (-e).toNat * 2 ^ j) (hj50 : j ≤ 50) :
    ∃ (m2 : Nat) (e2 : Int), Double.round (m : Int) 1 e = ⟨(m2 : Int), e2⟩ ∧
      (m2 = 0 ∨ e2 < 0) ∧ m2 ≤ Y * 2 ^ (-e2).toNat := by
  by_cases hm0 : m = 0
  · subst hm0
    exact ⟨0, 0, by simp [Double.round, Double.zero], Or.inl rfl, Nat.zero_le _⟩
  · have hpos : e.toNat = 0 := by omega
    have hne : ¬ ((m : Int) = 0) := by omega
    have hnl : ¬ ((m : Int) < 0) := by omega
    obtain ⟨a, b⟩ := roundPos_le m (2 ^ (-e).toNat) Y j (by omega) (by positivity) hY hj hj50
    refine ⟨(roundPos m (2 ^ (-e).toNat)).1, (roundPos m (2 ^ (-e).toNat)).2, ?_, Or.inr a, b⟩
    simp [Double.round, hne, hnl, hpos]

theorem div_bounds (w p : Nat) (hp : 0 < p) (hle : w ≤ p) :
    ∃ (m1 : Nat) (e1 : Int), Double.div (Double.ofInt (w : Int)) (Double.ofInt (p : Int)) = ⟨(m1 : Int), e1⟩ ∧
      (m1 = 0 ∨ e1 < 0) ∧ m1 ≤ 2 ^ (-e1).toNat := by
  have hs : ((p : Int)).sign = 1 := Int.sign_eq_one_of_pos (by omega)
  by_cases hw0 : w = 0
  · subst hw0
    exact ⟨0, 0, by simp [Double.div, Double.ofInt, Double.round, Double.zero], Or.inl rfl, Nat.zero_le _⟩
  · have hne : ¬ ((w : Int) = 0) := by omega
    have hnl : ¬ ((w : Int) < 0) := by omega
    obtain ⟨a, b⟩ := roundPos_le w p 1 0 (by omega) hp (by omega) (by omega) (by omega)
    refine ⟨(roundPos w p).1, (roundPos w p).2, ?_, Or.inr a, by omega⟩
    simp [Double.div, Double.ofInt, Double.round, hs, hne, hnl]

theorem winRateExpr_bounds (won played : Int) (h0 : 0 ≤ won) (hle : won ≤ played) (hp : 0 < played) :
    0 ≤ (winRateExpr won played).toRat ∧ (winRateExpr won played).toRat ≤ 100 := by
  obtain ⟨w, rfl⟩ := Int.eq_ofNat_of_zero_le h0
  obtain ⟨p, rfl⟩ := Int.eq_ofNat_of_zero_le (le_of_lt hp)
  obtain ⟨m1, e1, hdiv, hz1, hb1⟩ := div_bounds w p (by omega) (by omega)
  have hmul : winRateExpr (w : Int) (p : Int) = Double.round ((m1 * 100 : Nat) : Int) 1 e1 := by
    unfold winRateExpr
    rw [hdiv]
    simp [Double.mul, Double.ofInt]
  rw [hmul]
  rcases hz1 with hz | hneg
  · subst hz
    simp [Double.round, Double.zero, Double.toRat]
  · obtain ⟨m2, e2, hr, hz2, hb2⟩ := round_bounds (m1 * 100) 100 7 e1 hneg (by omega) (by omega) (by omega)
    rw [hr]
    rcases hz2 with hz | hneg2
    · subst hz
      simp [Double.toRat]
    · obtain ⟨a, b⟩ := toRat_le_of_mant_le m2 100 e2 hneg2 hb2
      exact ⟨b, by simpa using a⟩


theorem two_zpow_eq (k : Int) : (2 : ℚ) ^ k = (2 : ℚ) ^ k.toNat / (2 : ℚ) ^ (-k).toNat := by
  rcases le_or_lt 0 k with hk | hk
  · have e1 : (-k).toNat = 0 := by omega
    have e2 : k = (k.toNat : Int) := by omega
    rw [e1, pow_zero, div_one]
    conv_lhs => rw [e2]
    exact zpow_natCast 2 _
  · have e1 : k.toNat = 0 := by omega
    have e2 : k = -((-k).toNat : Int) := by omega
    rw [e1, pow_zero, one_div]
    conv_lhs => rw [e2]
    rw [zpow_neg, zpow_natCast]

theorem roundHalfEven_err (n d : Nat) (hd : 0 < d) :
    |((roundHalfEven n d : Nat) : ℚ) - (n : ℚ) / (d : ℚ)| ≤ 1 / 2 := by
  have hdq : (0 : ℚ) < (d : ℚ) := by exact_mod_cast hd
  have hdm := Nat.div_add_mod n d
  have hml := Nat.mod_lt n hd
  have key : ∀ m : Nat, 2 * n ≤ 2 * (m * d) + d → 2 * (m * d) ≤ 2 * n + d →
      |((m : Nat) : ℚ) - (n : ℚ) / (d : ℚ)| ≤ 1 / 2 := by
    intro m h1 h2
    have h1q : (2 : ℚ) * n ≤ 2 * (m * d) + d := by exact_mod_cast h1
    have h2q : (2 : ℚ) * (m * d) ≤ 2 * n + d := by exact_mod_cast h2
    have hx1 : (n : ℚ) / (d : ℚ) ≤ (m : ℚ) + 1 / 2 := by
      rw [div_le_iff₀ hdq]
      linarith
    have hx2 : (m : ℚ) - 1 / 2 ≤ (n : ℚ) / (d : ℚ) := by
      rw [le_div_iff₀ hdq]
      linarith
    rw [abs_le]
    constructor <;> linarith
  have hmul : n / d * d = d * (n / d) := Nat.mul_comm _ _
  have hmul1 : (n / d + 1) * d = d * (n / d) + d := by rw [Nat.add_mul, hmul, Nat.one_mul]
  unfold roundHalfEven
  simp only
  split_ifs
  · apply key
    · rw [hmul]; omega
    · rw [hmul]; omega
  · apply key
    · rw [hmul1]; omega
    · rw [hmul1]; omega
  · apply key
    · rw [hmul]; omega
    · rw [hmul]; omega
  · apply key
    · rw [hmul1]; omega
    · rw [hmul1]; omega

theorem floorLog2_lower (n d : Nat) (hn : 0 < n) (hd : 0 < d) :
    (2 : ℚ) ^ floorLog2 n d ≤ (n : ℚ) / (d : ℚ) := by
  have hdq : (0 : ℚ) < (d : ℚ) := by exact_mod_cast hd
  obtain ⟨a1, _, c1⟩ := bitLength_spec n hn
  obtain ⟨_, b2, _⟩ := bitLength_spec d hd
  unfold floorLog2
  simp only
  split_ifs with hc
  · rw [two_zpow_eq, div_le_div_iff₀ (by positivity) hdq]
    have : ((d * 2 ^ ((bitLength n : Int) - (bitLength d : Int)).toNat : Nat) : ℚ) ≤
        ((n * 2 ^ (-((bitLength n : Int) - (bitLength d : Int))).toNat : Nat) : ℚ) := by
      exact_mod_cast hc
    push_cast at this
    linarith
  · have e : (bitLength n : Int) - (bitLength d : Int) - 1 =
        ((bitLength n - 1 : Nat) : Int) - ((bitLength d : Nat) : Int) := by omega
    rw [e, zpow_sub₀ (by norm_num), zpow_natCast, zpow_natCast,
      div_le_div_iff₀ (by positivity) hdq]
    have h1 : ((2 ^ (bitLength n - 1) : Nat) : ℚ) ≤ (n : ℚ) := by exact_mod_cast a1
    have h2 : (d : ℚ) ≤ ((2 ^ bitLength d : Nat) : ℚ) := by exact_mod_cast b2.le
    push_cast at h1 h2
    have hnq : (0 : ℚ) ≤ (n : ℚ) := by positivity
    have hp : (0 : ℚ) ≤ (2 : ℚ) ^ (bitLength n - 1) := by positivity
    nlinarith

/-- The value `roundPos` returns differs from the fraction by at most half a
unit in the last place, which is at most the fraction times `2^-53`. -/
theorem roundPos_err (n d : Nat) (hn : 0 < n) (hd : 0 < d) :
    |((roundPos n d).1 : ℚ) * (2 : ℚ) ^ (roundPos n d).2 - (n : ℚ) / (d : ℚ)| ≤
      (n : ℚ) / (d : ℚ) / 2 ^ 53 := by
  have hdq : (0 : ℚ) < (d : ℚ) := by exact_mod_cast hd
  have hlow := floorLog2_lower n d hn hd
  set e : Int := floorLog2 n d - 52 with he
  have hval : ((roundPos n d).1 : ℚ) * (2 : ℚ) ^ (roundPos n d).2 =
      ((roundHalfEven (n * 2 ^ (-e).toNat) (d * 2 ^ e.toNat) : Nat) : ℚ) * (2 : ℚ) ^ e := by
    unfold roundPos
    simp only [← he]
    split_ifs with hm
    · rw [hm]
      simp only
      rw [zpow_add₀ (by norm_num)]
      push_cast
      ring
    · rfl
  rw [hval]
  have hD : 0 < d * 2 ^ e.toNat := Nat.mul_pos hd (by positivity)
  have herr := roundHalfEven_err (n * 2 ^ (-e).toNat) (d * 2 ^ e.toNat) hD
  have hx : (((n * 2 ^ (-e).toNat : Nat) : ℚ)) / ((d * 2 ^ e.toNat : Nat) : ℚ) =
      (n : ℚ) / (d : ℚ) / (2 : ℚ) ^ e := by
    rw [two_zpow_eq e]
    push_cast
    field_simp
  rw [hx] at herr
  have hpe : (0 : ℚ) < (2 : ℚ) ^ e := by positivity
  have hsplit : ((roundHalfEven (n * 2 ^ (-e).toNat) (d * 2 ^ e.toNat) : Nat) : ℚ) * (2 : ℚ) ^ e -
      (n : ℚ) / (d : ℚ) =
      (((roundHalfEven (n * 2 ^ (-e).toNat) (d * 2 ^ e.toNat) : Nat) : ℚ) -
        (n : ℚ) / (d : ℚ) / (2 : ℚ) ^ e) * (2 : ℚ) ^ e := by
    field_simp
    ring
  rw [hsplit, abs_mul, abs_of_pos hpe]
  have h53 : (2 : ℚ) ^ e = (2 : ℚ) ^ floorLog2 n d / 2 ^ 52 := by
    rw [he, zpow_sub₀ (by norm_num)]
    norm_num
  calc |((roundHalfEven (n * 2 ^ (-e).toNat) (d * 2 ^ e.toNat) : Nat) : ℚ) -
        (n : ℚ) / (d : ℚ) / (2 : ℚ) ^ e| * (2 : ℚ) ^ e
      ≤ 1 / 2 * (2 : ℚ) ^ e := mul_le_mul_of_nonneg_right herr hpe.le
    _ = (2 : ℚ) ^ floorLog2 n d / 2 ^ 53 := by rw [h53]; ring
    _ ≤ (n : ℚ) / (d : ℚ) / 2 ^ 53 := by
      apply div_le_div_of_nonneg_right hlow (by positivity)

theorem round_err (num : Int) (den : Nat) (e : Int) (hden : 0 < den) :
    |(Double.round num den e).toRat - (num : ℚ) / (den : ℚ) * (2 : ℚ) ^ e| ≤
      |(num : ℚ) / (den : ℚ) * (2 : ℚ) ^ e| / 2 ^ 53 := by
  by_cases h0 : num = 0
  · subst h0
    simp [Double.round, Double.zero, Double.toRat]
  · have hn : 0 < num.natAbs * 2 ^ e.toNat := Nat.mul_pos (Int.natAbs_pos.2 h0) (by positivity)
    have hd : 0 < den * 2 ^ (-e).toNat := Nat.mul_pos hden (by positivity)
    have herr := roundPos_err _ _ hn hd
    have hdq : (0 : ℚ) < (den : ℚ) := by exact_mod_cast hden
    have hfrac : (((num.natAbs * 2 ^ e.toNat : Nat) : ℚ)) / ((den * 2 ^ (-e).toNat : Nat) : ℚ) =
        (num.natAbs : ℚ) / (den : ℚ) * (2 : ℚ) ^ e := by
      rw [two_zpow_eq e]
      push_cast
      field_simp
    rw [hfrac] at herr
    have habs : ((num.natAbs : Nat) : ℚ) = |(num : ℚ)| := by
      rw [Nat.cast_natAbs, Int.cast_abs]
    have hpe : (0 : ℚ) < (2 : ℚ) ^ e := by positivity
    have hrhs : |(num : ℚ) / (den : ℚ) * (2 : ℚ) ^ e| = (num.natAbs : ℚ) / (den : ℚ) * (2 : ℚ) ^ e := by
      rw [abs_mul, abs_div, abs_of_pos hpe, abs_of_pos hdq, habs]
    rw [hrhs]
    rcases lt_or_gt_of_ne h0 with hneg | hpos
    · have hnum : (num : ℚ) = -(num.natAbs : ℚ) := by
        rw [habs, abs_of_neg (by exact_mod_cast hneg)]
        ring
      simp only [Double.round, h0, if_false, hneg, if_true, Double.toRat, Int.cast_neg,
        Int.cast_natCast]
      rw [hnum]
      have e1 : -((roundPos (num.natAbs * 2 ^ e.toNat) (den * 2 ^ (-e).toNat)).1 : ℚ) *
          (2 : ℚ) ^ (roundPos (num.natAbs * 2 ^ e.toNat) (den * 2 ^ (-e).toNat)).2 -
          -(num.natAbs : ℚ) / (den : ℚ) * (2 : ℚ) ^ e =
          -(((roundPos (num.natAbs * 2 ^ e.toNat) (den * 2 ^ (-e).toNat)).1 : ℚ) *
            (2 : ℚ) ^ (roundPos (num.natAbs * 2 ^ e.toNat) (den * 2 ^ (-e).toNat)).2 -
            (num.natAbs : ℚ) / (den : ℚ) * (2 : ℚ) ^ e) := by ring
      rw [e1, abs_neg]
      exact herr
    · have hnl : ¬ num < 0 := by omega
      have hnum : (num : ℚ) = (num.natAbs : ℚ) := by
        rw [habs, abs_of_pos (by exact_mod_cast hpos)]
      simp only [Double.round, h0, if_false, hnl, Double.toRat, Int.cast_natCast]
      rw [hnum]
      exact herr

theorem div_err (a b : Double) (hb : b.mant ≠ 0) :
    |(Double.div a b).toRat - a.toRat / b.toRat| ≤ |a.toRat / b.toRat| / 2 ^ 53 := by
  have hpos : 0 < b.mant.natAbs := Int.natAbs_pos.2 hb
  have h := round_err (a.mant * b.mant.sign) b.mant.natAbs (a.exp - b.exp) hpos
  have hbq : (b.mant : ℚ) ≠ 0 := by exact_mod_cast hb
  have habs : ((b.mant.natAbs : Nat) : ℚ) = |(b.mant : ℚ)| := by
    rw [Nat.cast_natAbs, Int.cast_abs]
  have hsign : ((b.mant.sign : Int) : ℚ) / |(b.mant : ℚ)| = 1 / (b.mant : ℚ) := by
    rcases lt_or_gt_of_ne hb with hneg | hp
    · rw [Int.sign_eq_neg_one_of_neg hneg, abs_of_neg (by exact_mod_cast hneg)]
      push_cast
      field_simp
    · rw [Int.sign_eq_one_of_pos hp, abs_of_pos (by exact_mod_cast hp)]
      push_cast
      rfl
  have hval : ((a.mant * b.mant.sign : Int) : ℚ) / ((b.mant.natAbs : Nat) : ℚ) *
      (2 : ℚ) ^ (a.exp - b.exp) = a.toRat / b.toRat := by
    rw [habs, Int.cast_mul, mul_div_assoc, hsign, zpow_sub₀ (by norm_num)]
    simp only [Double.toRat]
    field_simp
  rw [hval] at h
  exact h

theorem mul_err (a b : Double) :
    |(Double.mul a b).toRat - a.toRat * b.toRat| ≤ |a.toRat * b.toRat| / 2 ^ 53 := by
  have h := round_err (a.mant * b.mant) 1 (a.exp + b.exp) (by norm_num)
  have hval : ((a.mant * b.mant : Int) : ℚ) / ((1 : Nat) : ℚ) * (2 : ℚ) ^ (a.exp + b.exp) =
      a.toRat * b.toRat := by
    rw [zpow_add₀ (by norm_num)]
    simp only [Double.toRat]
    push_cast
    ring
  rw [hval] at h
  exact h

/-- The `double` computed by `updateWinRate` is the exact percentage up to the
two roundings: the relative error is at most `2^-51`. -/
theorem winRateExpr_err (won played : Int) (hp : played ≠ 0) :
    |(winRateExpr won played).toRat - (won : ℚ) / (played : ℚ) * 100| ≤
      |(won : ℚ) / (played : ℚ) * 100| / 2 ^ 51 := by
  have h1 := div_err (Double.ofInt won) (Double.ofInt played) hp
  have h2 := mul_err (Double.div (Double.ofInt won) (Double.ofInt played)) (Double.ofInt 100)
  have ew : (Double.ofInt won).toRat = (won : ℚ) := by simp [Double.ofInt, Double.toRat]
  have ep : (Double.ofInt played).toRat = (played : ℚ) := by simp [Double.ofInt, Double.toRat]
  have ec : (Double.ofInt 100).toRat = 100 := by simp [Double.ofInt, Double.toRat]
  rw [ew, ep] at h1
  rw [ec] at h2
  unfold winRateExpr
  set q := (Double.div (Double.ofInt won) (Double.ofInt played)).toRat with hq
  set x := (won : ℚ) / (played : ℚ) with hx
  set r := (Double.mul (Double.div (Double.ofInt won) (Double.ofInt played))
    (Double.ofInt 100)).toRat with hr
  have hxa : 0 ≤ |x| := abs_nonneg x
  have hq1 : |q| ≤ |x| + |x| / 2 ^ 53 := by
    have := abs_sub_abs_le_abs_sub q x
    linarith
  have e100 : |q * 100| = |q| * 100 := by rw [abs_mul]; norm_num
  have e100x : |x * 100| = |x| * 100 := by rw [abs_mul]; norm_num
  rw [e100] at h2
  rw [e100x]
  have hsplit : r - x * 100 = (r - q * 100) + (q - x) * 100 := by ring
  have hb : |(q - x) * 100| = |q - x| * 100 := by rw [abs_mul]; norm_num
  calc |r - x * 100| = |(r - q * 100) + (q - x) * 100| := by rw [hsplit]
    _ ≤ |r - q * 100| + |(q - x) * 100| := abs_add _ _
    _ ≤ |q| * 100 / 2 ^ 53 + |x| / 2 ^ 53 * 100 := by rw [hb]; linarith
    _ ≤ |x| * 100 / 2 ^ 51 := by
      have : |q| * 100 / 2 ^ 53 ≤ (|x| + |x| / 2 ^ 53) * 100 / 2 ^ 53 := by
        apply div_le_div_of_nonneg_right _ (by positivity)
        linarith
      have e : (|x| + |x| / 2 ^ 53) * 100 / 2 ^ 53 + |x| / 2 ^ 53 * 100 ≤ |x| * 100 / 2 ^ 51 := by
        have : (|x| + |x| / 2 ^ 53) * 100 / 2 ^ 53 + |x| / 2 ^ 53 * 100 =
            |x| * (100 * (2 / 2 ^ 53 + 1 / (2 ^ 53 * 2 ^ 53))) := by ring
        rw [this]
        have : |x| * 100 / 2 ^ 51 = |x| * (100 / 2 ^ 51) := by ring
        rw [this]
        apply mul_le_mul_of_nonneg_left _ hxa
        norm_num
      linarith

theorem floorLog2_upper (n d : Nat) (hn : 0 < n) (hd : 0 < d) :
    (n : ℚ) / (d : ℚ) < (2 : ℚ) ^ (floorLog2 n d + 1) := by
  have hdq : (0 : ℚ) < (d : ℚ) := by exact_mod_cast hd
  obtain ⟨_, b1, _⟩ := bitLength_spec n hn
  obtain ⟨a2, _, c2⟩ := bitLength_spec d hd
  unfold floorLog2
  simp only
  split_ifs with hc
  · have e : (bitLength n : Int) - (bitLength d : Int) + 1 =
        ((bitLength n : Nat) : Int) - ((bitLength d - 1 : Nat) : Int) := by omega
    rw [e, zpow_sub₀ (by norm_num), zpow_natCast, zpow_natCast,
      div_lt_div_iff₀ hdq (by positivity)]
    have h1 : (n : ℚ) < ((2 ^ bitLength n : Nat) : ℚ) := by exact_mod_cast b1
    have h2 : ((2 ^ (bitLength d - 1) : Nat) : ℚ) ≤ (d : ℚ) := by exact_mod_cast a2
    push_cast at h1 h2
    have hp : (0 : ℚ) < (2 : ℚ) ^ (bitLength d - 1) := by positivity
    have hp2 : (0 : ℚ) < (2 : ℚ) ^ bitLength n := by positivity
    nlinarith
  · have e : (bitLength n : Int) - (bitLength d : Int) - 1 + 1 =
        (bitLength n : Int) - (bitLength d : Int) := by omega
    rw [e, two_zpow_eq, div_lt_div_iff₀ hdq (by positivity)]
    have hlt : n * 2 ^ (-((bitLength n : Int) - (bitLength d : Int))).toNat <
        d * 2 ^ ((bitLength n : Int) - (bitLength d : Int)).toNat := by omega
    have : ((n * 2 ^ (-((bitLength n : Int) - (bitLength d : Int))).toNat : Nat) : ℚ) <
        ((d * 2 ^ ((bitLength n : Int) - (bitLength d : Int)).toNat : Nat) : ℚ) := by
      exact_mod_cast hlt
    push_cast at this
    linarith

theorem roundHalfEven_ge (n d y : Nat) (hd : 0 < d) (h : y * d ≤ n) : y ≤ roundHalfEven n d := by
  have hq : y ≤ n / d := (Nat.le_div_iff_mul_le hd).2 h
  unfold roundHalfEven
  simp only
  split_ifs <;> omega

/-- The mantissa `roundPos` returns has exactly 53 binary digits. -/
theorem roundPos_normal (n d : Nat) (hn : 0 < n) (hd : 0 < d) :
    2 ^ 52 ≤ (roundPos n d).1 ∧ (roundPos n d).1 < 2 ^ 53 := by
  have hdq : (0 : ℚ) < (d : ℚ) := by exact_mod_cast hd
  have hlow := floorLog2_lower n d hn hd
  have hup := floorLog2_upper n d hn hd
  set e : Int := floorLog2 n d - 52 with he
  have hk : floorLog2 n d = e + 52 := by omega
  rw [hk] at hlow
  rw [hk, add_assoc] at hup
  rw [zpow_add₀ (by norm_num), two_zpow_eq e, le_div_iff₀ hdq] at hlow
  rw [zpow_add₀ (by norm_num), two_zpow_eq e, div_lt_iff₀ hdq] at hup
  have hpn : (0 : ℚ) < (2 : ℚ) ^ (-e).toNat := by positivity
  have hlowN : 2 ^ 52 * (d * 2 ^ e.toNat) ≤ n * 2 ^ (-e).toNat := by
    have : (2 : ℚ) ^ 52 * ((d : ℚ) * (2 : ℚ) ^ e.toNat) ≤ (n : ℚ) * (2 : ℚ) ^ (-e).toNat := by
      have h1 : (2 : ℚ) ^ e.toNat / (2 : ℚ) ^ (-e).toNat * (2 : ℚ) ^ (52 : Int) * (d : ℚ) *
          (2 : ℚ) ^ (-e).toNat ≤ (n : ℚ) * (2 : ℚ) ^ (-e).toNat :=
        mul_le_mul_of_nonneg_right hlow hpn.le
      have h2 : (2 : ℚ) ^ e.toNat / (2 : ℚ) ^ (-e).toNat * (2 : ℚ) ^ (52 : Int) * (d : ℚ) *
          (2 : ℚ) ^ (-e).toNat = (2 : ℚ) ^ 52 * ((d : ℚ) * (2 : ℚ) ^ e.toNat) := by
        field_simp
        norm_num
        ring
      rw [h2] at h1
      exact h1
    exact_mod_cast this
  have hupN : n * 2 ^ (-e).toNat ≤ 2 ^ 53 * (d * 2 ^ e.toNat) := by
    have : (n : ℚ) * (2 : ℚ) ^ (-e).toNat ≤ (2 : ℚ) ^ 53 * ((d : ℚ) * (2 : ℚ) ^ e.toNat) := by
      have h1 : (n : ℚ) * (2 : ℚ) ^ (-e).toNat <
          (2 : ℚ) ^ e.toNat / (2 : ℚ) ^ (-e).toNat * (2 : ℚ) ^ ((52 : Int) + 1) * (d : ℚ) *
            (2 : ℚ) ^ (-e).toNat :=
        mul_lt_mul_of_pos_right hup hpn
      have h2 : (2 : ℚ) ^ e.toNat / (2 : ℚ) ^ (-e).toNat * (2 : ℚ) ^ ((52 : Int) + 1) * (d : ℚ) *
          (2 : ℚ) ^ (-e).toNat = (2 : ℚ) ^ 53 * ((d : ℚ) * (2 : ℚ) ^ e.toNat) := by
        field_simp
        norm_num
        ring
      rw [h2] at h1
      exact h1.le
    exact_mod_cast this
  have hD : 0 < d * 2 ^ e.toNat := Nat.mul_pos hd (by positivity)
  have hge := roundHalfEven_ge _ _ _ hD hlowN
  have hle := roundHalfEven_le _ _ _ hD hupN
  unfold roundPos
  simp only [← he]
  split_ifs with hm
  · exact ⟨le_refl _, by norm_num⟩
  · exact ⟨hge, lt_of_le_of_ne hle hm⟩

theorem updateWinRate_close (p : Player) (h : 0 < p.updateWinRate.gamesPlayed) :
    |p.updateWinRate.winRate.toRat -
        (p.updateWinRate.gamesWon : ℚ) / (p.updateWinRate.gamesPlayed : ℚ) * 100| ≤
      |(p.updateWinRate.gamesWon : ℚ) / (p.updateWinRate.gamesPlayed : ℚ) * 100| / 2 ^ 51 := by
  have hp : 0 < p.gamesPlayed := h
  have e : p.updateWinRate.winRate = winRateExpr p.gamesWon p.gamesPlayed := by
    simp only [Player.updateWinRate, gt_iff_lt, hp, if_true]
  rw [e]
  exact winRateExpr_err p.gamesWon p.gamesPlayed (by omega)

/-! ### Statistics counters -/

/-- C12 as stated fails at both ends of the counter range.  For a participant
loaded with `gamesPlayed = -5` and `gamesWon = 2`, `recordLoss` leaves
`gamesPlayed = -4`, where the guard `gamesPlayed_ > 0` of `updateWinRate` sets
`winRate` to 0.0 and not to the value -50 of `gamesWon / gamesPlayed × 100`.
For a participant whose `gamesPlayed` is `INT_MAX`, `recordWin` does not
increase it by one: the `int` becomes `INT_MIN`. -/
theorem record_fails_at_counter_extremes :
    (Player.recordLoss { Player.new "Ann" with gamesPlayed := -5, gamesWon := 2 }).gamesPlayed = -4 ∧
    (Player.recordLoss { Player.new "Ann" with gamesPlayed := -5, gamesWon := 2 }).gamesWon = 2 ∧
    (Player.recordLoss { Player.new "Ann" with gamesPlayed := -5, gamesWon := 2 }).winRate =
      Double.zero ∧
    winRateExpr 2 (-4) = ⟨-7036874417766400, -47⟩ ∧
    (Player.recordWin
        { Player.new "Ann" with gamesPlayed := 2147483647, gamesLost := 2147483647 }).gamesPlayed =
      -2147483648 := by
  decide

/-- C12 (amended): on a participant whose four counters are `int` values below
`INT_MAX`, each of `recordWin`, `recordLoss`, `recordPush` adds one to
`gamesPlayed` and to its own counter, leaves the two other counters, `maxScore`,
the name and the hand unchanged, and sets `winRate` to the `double` that
`gamesWon / gamesPlayed × 100` evaluates to on the updated counters (quotient
and product each rounded to nearest) when the updated `gamesPlayed` is
positive, and to 0.0 otherwise.  That `double` is the exact percentage of the
updated counters up to a relative error of `2^-51`. -/
theorem record_updates_statistics (p : Player)
    (hplayed : belowIntMax p.gamesPlayed) (hwon : belowIntMax p.gamesWon)
    (hlost : belowIntMax p.gamesLost) (hpushed : belowIntMax p.gamesPushed) :
    (p.recordWin.gamesPlayed = p.gamesPlayed + 1 ∧ p.recordWin.gamesWon = p.gamesWon + 1 ∧
      p.recordWin.gamesLost = p.gamesLost ∧ p.recordWin.gamesPushed = p.gamesPushed ∧
      p.recordWin.maxScore = p.maxScore ∧ p.recordWin.name = p.name ∧ p.recordWin.hand = p.hand ∧
      p.recordWin.winRate =
        if 0 < p.gamesPlayed + 1 then winRateExpr (p.gamesWon + 1) (p.gamesPlayed + 1)
        else Double.zero) ∧
    (p.recordLoss.gamesPlayed = p.gamesPlayed + 1 ∧ p.recordLoss.gamesLost = p.gamesLost + 1 ∧
      p.recordLoss.gamesWon = p.gamesWon ∧ p.recordLoss.gamesPushed = p.gamesPushed ∧
      p.recordLoss.maxScore = p.maxScore ∧ p.recordLoss.name = p.name ∧ p.recordLoss.hand = p.hand ∧
      p.recordLoss.winRate =
        if 0 < p.gamesPlayed + 1 then winRateExpr p.gamesWon (p.gamesPlayed + 1)
        else Double.zero) ∧
    (p.recordPush.gamesPlayed = p.gamesPlayed + 1 ∧ p.recordPush.gamesPushed = p.gamesPushed + 1 ∧
      p.recordPush.gamesWon = p.gamesWon ∧ p.recordPush.gamesLost = p.gamesLost ∧
      p.recordPush.maxScore = p.maxScore ∧ p.recordPush.name = p.name ∧ p.recordPush.hand = p.hand ∧
      p.recordPush.winRate =
        if 0 < p.gamesPlayed + 1 then winRateExpr p.gamesWon (p.gamesPlayed + 1)
        else Double.zero) ∧
    (∀ q ∈ [p.recordWin, p.recordLoss, p.recordPush], 0 < q.gamesPlayed →
      |q.winRate.toRat - (q.gamesWon : ℚ) / (q.gamesPlayed : ℚ) * 100| ≤
        |(q.gamesWon : ℚ) / (q.gamesPlayed : ℚ) * 100| / 2 ^ 51) := by
  have e0 := wrapInt32_succ _ hplayed
  have e1 := wrapInt32_succ _ hwon
  have e2 := wrapInt32_succ _ hlost
  have e3 := wrapInt32_succ _ hpushed
  refine ⟨⟨?_, ?_, rfl, rfl, rfl, rfl, rfl, ?_⟩, ⟨?_, ?_, rfl, rfl, rfl, rfl, rfl, ?_⟩,
    ⟨?_, ?_, rfl, rfl, rfl, rfl, rfl, ?_⟩, ?_⟩
  · exact e0
  · exact e1
  · simp only [Player.recordWin, Player.updateWinRate, e0, e1, gt_iff_lt]
  · exact e0
  · exact e2
  · simp only [Player.recordLoss, Player.updateWinRate, e0, gt_iff_lt]
  · exact e0
  · exact e3
  · simp only [Player.recordPush, Player.updateWinRate, e0, gt_iff_lt]
  · intro q hq hpos
    simp only [List.mem_cons, List.not_mem_nil, or_false] at hq
    rcases hq with rfl | rfl | rfl
    · exact updateWinRate_close _ hpos
    · exact updateWinRate_close _ hpos
    · exact updateWinRate_close _ hpos

/-- Witness for C12: a participant with two losses records a win: three games
played, one won, and the win rate is the `double` 33.333333333333329, which is
`4691249611844266 × 2^-47`. -/
theorem record_updates_statistics_witness :
    (Player.recordWin { Player.new "Ann" with gamesPlayed := 2, gamesLost := 2 }).gamesPlayed = 3 ∧
    (Player.recordWin { Player.new "Ann" with gamesPlayed := 2, gamesLost := 2 }).gamesWon = 1 ∧
    (Player.recordWin { Player.new "Ann" with gamesPlayed := 2, gamesLost := 2 }).winRate =
      ⟨4691249611844266, -47⟩ := by
  obtain ⟨⟨a, b, _, _, _, _, _, c⟩, _, _, _⟩ :=
    record_updates_statistics { Player.new "Ann" with gamesPlayed := 2, gamesLost := 2 }
      (by decide) (by decide) (by decide) (by decide)
  refine ⟨a, b, ?_⟩
  rw [c]
  decide

/-! ### Rounds and the roster -/

theorem pairOnTopOrder_perm : pairOnTopOrder.Perm oneSeatGame.deck.cards := by
  decide

theorem determineWinner_maxScore (g : Game) :
    g.determineWinner.players.map Player.maxScore = g.players.map Player.maxScore := by
  simp only [Game.determineWinner, List.map_map]
  apply List.map_congr_left
  intro p _
  simp only [Function.comp, resolvePlayer]
  split_ifs <;> rfl

/-- C13 (what the code does): `Game::determineWinner` leaves every `maxScore`
as it was, and no other step of `Game::playRound` calls `updateMaxScore`: in
the round of one player who is dealt Ace and King of Spades and stands, the
player ends with a hand of 21, a recorded win and `maxScore` still 0. -/
theorem playRound_leaves_maxScore :
    (∀ g : Game, g.determineWinner.players.map Player.maxScore = g.players.map Player.maxScore) ∧
    (oneSeatGame.playRound Deck.new.cards (List.Perm.refl _) (fun _ => 2) 0).map
        (fun r => (r.1, r.2.1.players.map
          (fun p => (p.name, p.calculateScore, p.gamesWon, p.maxScore)))) =
      some (Except.ok (), [("Ann", 21, 1, 0)]) ∧
    ((Player.new "Ann").updateMaxScore 21).maxScore = 21 :=
  ⟨determineWinner_maxScore, by decide, by decide⟩

/-- C15 (what the code does): the split participants pushed to `players_` by
`Game::playerTurns` stay there.  The reset for the next round only clears the
hands of the roster it finds.  After a round in which Ann splits King and
Queen, the roster is Ann and "Ann (Split)"; after the reset the next round
deals two cards to both and resolves both. -/
theorem split_participants_persist :
    (∀ (g : Game) (order : List Card) (h : order.Perm Deck.new.cards),
      (g.nextRoundReset order h).players = g.players.map Player.clearHand) ∧
    (oneSeatGame.playRound pairOnTopOrder pairOnTopOrder_perm
        (fun n => if n = 0 then 4 else 2) 0).map
        (fun r => (r.1, r.2.1.players.map (fun p => (p.name, p.hand.length, p.gamesPlayed)))) =
      some (Except.ok (), [("Ann", 3, 1), ("Ann (Split)", 2, 1)]) ∧
    (oneSeatGame.playRound pairOnTopOrder pairOnTopOrder_perm
        (fun n => if n = 0 then 4 else 2) 0).map
        (fun r => (r.2.1.nextRoundReset Deck.new.cards (List.Perm.refl _)).dealInitialCards.2.players.map
          (fun p => (p.name, p.hand.length))) =
      some [("Ann", 2), ("Ann (Split)", 2)] ∧
    (oneSeatGame.playRound pairOnTopOrder pairOnTopOrder_perm
        (fun n => if n = 0 then 4 else 2) 0).bind
        (fun r => ((r.2.1.nextRoundReset Deck.new.cards (List.Perm.refl _)).playRound Deck.new.cards
            (List.Perm.refl _) (fun _ => 2) 0).map
          (fun r2 => (r2.1, r2.2.1.players.map (fun p => (p.name, p.hand.length, p.gamesPlayed))))) =
      some (Except.ok (), [("Ann", 2, 2), ("Ann (Split)", 2, 2)]) :=
  ⟨fun _ _ _ => rfl, by decide, by decide, by decide⟩

/-! ### The statistics file: writing and reading back -/

theorem digitChar_spec (k : Nat) (hk : k < 10) :
    isDigitChar (Nat.digitChar k) = true ∧ (Nat.digitChar k).toNat - 48 = k := by
  interval_cases k <;> decide

theorem digitsValue_snoc (L : List Char) (d : Char) :
    digitsValue (L ++ [d]) = digitsValue L * 10 + (d.toNat - 48) := by
  simp [digitsValue, List.foldl_append]

theorem toDigitsCore_spec (fuel n : Nat) (h : n < fuel) :
    ∃ L : List Char, L ≠ [] ∧ (∀ c ∈ L, isDigitChar c = true) ∧ digitsValue L = n ∧
      ∀ ds, Nat.toDigitsCore 10 fuel n ds = L ++ ds := by
  induction fuel generalizing n with
  | zero => omega
  | succ fuel ih =>
    obtain ⟨hd1, hd2⟩ := digitChar_spec (n % 10) (Nat.mod_lt _ (by decide))
    by_cases h0 : n / 10 = 0
    · refine ⟨[Nat.digitChar (n % 10)], by simp, ?_, ?_, ?_⟩
      · intro c hc
        simp only [List.mem_singleton] at hc
        rw [hc]; exact hd1
      · simp only [digitsValue, List.foldl_cons, List.foldl_nil, hd2]
        omega
      · intro ds
        simp [Nat.toDigitsCore, h0]
    · obtain ⟨L, hL1, hL2, hL3, hL4⟩ := ih (n / 10) (by omega)
      refine ⟨L ++ [Nat.digitChar (n % 10)], by simp, ?_, ?_, ?_⟩
      · intro c hc
        rcases List.mem_append.1 hc with hc | hc
        · exact hL2 c hc
        · simp only [List.mem_singleton] at hc
          rw [hc]; exact hd1
      · rw [digitsValue_snoc, hL3, hd2]
        omega
      · intro ds
        simp [Nat.toDigitsCore, h0, hL4]

theorem takeWhile_dropWhile_append (p : Char → Bool) (L tail : List Char)
    (hL : ∀ c ∈ L, p c = true) (ht : ∀ c, tail.head? = some c → p c = false) :
    (L ++ tail).takeWhile p = L ∧ (L ++ tail).dropWhile p = tail := by
  induction L with
  | nil =>
    cases tail with
    | nil => simp
    | cons c t => simp [ht c rfl]
  | cons a L ih =>
    have ha : p a = true := hL a (List.mem_cons_self _ _)
    obtain ⟨h1, h2⟩ := ih (fun c hc => hL c (List.mem_cons_of_mem _ hc))
    simp [List.takeWhile_cons, List.dropWhile_cons, ha, h1, h2]

theorem readInt_formatInt (v : Int) (tail : List Char) (h0 : 0 ≤ v) (hmax : v ≤ 2147483647)
    (ht : ∀ c, tail.head? = some c → isDigitChar c = false) :
    readInt (formatInt v ++ tail) = some (v, tail) := by
  obtain ⟨L, hL1, hL2, hL3, hL4⟩ := toDigitsCore_spec (v.toNat + 1) v.toNat (by omega)
  have hf : formatInt v = L := by
    have : ¬ v < 0 := by omega
    simp only [formatInt, this, if_false, Nat.toDigits, hL4, List.append_nil]
  obtain ⟨tw, dw⟩ := takeWhile_dropWhile_append isDigitChar L tail hL2 ht
  rw [hf]
  cases L with
  | nil => exact absurd rfl hL1
  | cons c0 L1 =>
    have hc0 : isDigitChar c0 = true := hL2 c0 (List.mem_cons_self _ _)
    have hsp : isSpaceChar c0 = false := by
      simp only [isDigitChar, Bool.and_eq_true, decide_eq_true_eq] at hc0
      simp only [isSpaceChar, Bool.or_eq_false_iff, Bool.and_eq_false_imp, decide_eq_false_iff_not, decide_eq_true_eq]
      omega
    have hminus : c0 ≠ '-' := by
      intro h; rw [h] at hc0; revert hc0; decide
    have hplus : c0 ≠ '+' := by
      intro h; rw [h] at hc0; revert hc0; decide
    have hval : ((digitsValue (c0 :: L1) : Nat) : Int) = v := by
      rw [hL3]; omega
    have hsign : readSign (c0 :: (L1 ++ tail)) = (false, c0 :: (L1 ++ tail)) := by
      unfold readSign
      split
      · next t heq => simp at heq; exact absurd heq.1 hminus
      · next t heq => simp at heq; exact absurd heq.1 hplus
      · rfl
    simp only [List.cons_append] at tw dw
    simp only [readInt, List.cons_append, List.dropWhile_cons, hsp, Bool.false_eq_true, if_false,
      hsign, tw, dw, hval]
    simp
    omega

theorem getlineColon_append (name rest : List Char) (h : ':' ∉ name) :
    getlineColon (name ++ ':' :: rest) = some (name, rest) := by
  obtain ⟨tw, dw⟩ := takeWhile_dropWhile_append (fun c => decide (c ≠ ':')) name (':' :: rest)
    (by
      intro c hc
      have : c ≠ ':' := fun e => h (e ▸ hc)
      simp [this])
    (by
      intro c hc
      simp only [List.head?_cons, Option.some.injEq] at hc
      simp [← hc])
  cases name with
  | nil => simp [getlineColon]
  | cons a t =>
    simp only [List.cons_append] at tw dw
    simp only [getlineColon, List.cons_append, tw, dw, List.drop_succ_cons, List.drop_zero]

theorem readChar_colon (rest : List Char) : readChar (':' :: rest) = some (':', rest) := by
  have : isSpaceChar ':' = false := by decide
  simp [readChar, List.dropWhile_cons, this]

theorem head_colon_not_digit (rest : List Char) :
    ∀ c, (':' :: rest).head? = some c → isDigitChar c = false := by
  intro c hc
  simp only [List.head?_cons, Option.some.injEq] at hc
  rw [← hc]
  decide

theorem parseStatsLine_statsLine (p : Player) (hcolon : ':' ∉ p.name.data)
    (h1 : nonNegativeInt p.gamesPlayed) (h2 : nonNegativeInt p.gamesWon)
    (h3 : nonNegativeInt p.gamesLost) (h4 : nonNegativeInt p.gamesPushed)
    (h5 : nonNegativeInt p.maxScore) :
    parseStatsLine (statsLine p) =
      some (p.name, p.gamesPlayed, p.gamesWon, p.gamesLost, p.gamesPushed, p.maxScore) := by
  have e : (statsLine p).data =
      p.name.data ++ ':' :: (formatInt p.gamesPlayed ++ ':' :: (formatInt p.gamesWon ++ ':' ::
        (formatInt p.gamesLost ++ ':' :: (formatInt p.gamesPushed ++ ':' ::
          (formatInt p.maxScore ++ []))))) := by
    simp [statsLine]
  unfold parseStatsLine
  rw [e, getlineColon_append _ _ hcolon]
  simp only [Option.bind_some, Option.some_bind,
    readInt_formatInt _ _ h1.1 h1.2 (head_colon_not_digit _),
    readInt_formatInt _ _ h2.1 h2.2 (head_colon_not_digit _),
    readInt_formatInt _ _ h3.1 h3.2 (head_colon_not_digit _),
    readInt_formatInt _ _ h4.1 h4.2 (head_colon_not_digit _),
    readInt_formatInt _ [] h5.1 h5.2 (by simp),
    readChar_colon]

theorem loadFirstMatch_append (name : String) (gp gw gl gpu ms : Int)
    (pre post : List Player) (target : Player)
    (hpre : ∀ q ∈ pre, q.name ≠ name) (hname : target.name = name) :
    loadFirstMatch name gp gw gl gpu ms (pre ++ target :: post) =
      pre ++ target.loadStats gp gw gl gpu ms :: post := by
  induction pre with
  | nil => simp [loadFirstMatch, hname]
  | cons a t ih =>
    have ha : a.name ≠ name := hpre a (List.mem_cons_self _ _)
    simp only [List.cons_append, loadFirstMatch, ha, if_false]
    exact congrArg (List.cons a) (ih (fun q hq => hpre q (List.mem_cons_of_mem _ hq)))

theorem loadFirstMatch_no_match (name : String) (gp gw gl gpu ms : Int) (ps : List Player)
    (h : ∀ q ∈ ps, q.name ≠ name) :
    loadFirstMatch name gp gw gl gpu ms ps = ps := by
  induction ps with
  | nil => rfl
  | cons a t ih =>
    have ha : a.name ≠ name := h a (List.mem_cons_self _ _)
    simp only [loadFirstMatch, ha, if_false]
    exact congrArg (List.cons a) (ih (fun q hq => h q (List.mem_cons_of_mem _ hq)))

theorem loadStats_fields (p : Player) (gp gw gl gpu ms : Int) :
    (p.loadStats gp gw gl gpu ms).name = p.name ∧
    (p.loadStats gp gw gl gpu ms).hand = p.hand ∧
    (p.loadStats gp gw gl gpu ms).gamesPlayed = gp ∧
    (p.loadStats gp gw gl gpu ms).gamesWon = gw ∧
    (p.loadStats gp gw gl gpu ms).gamesLost = gl ∧
    (p.loadStats gp gw gl gpu ms).gamesPushed = gpu ∧
    (p.loadStats gp gw gl gpu ms).maxScore = ms ∧
    (p.loadStats gp gw gl gpu ms).winRate =
      if 0 < gp then winRateExpr gw gp else Double.zero := by
  exact ⟨rfl, rfl, rfl, rfl, rfl, rfl, rfl, rfl⟩

/-- C14 as stated fails: the name "A:B" can be typed on one line, but in the
line written for it the name read back stops at the first colon and the first
number fails to parse, so a fresh participant of that name keeps its zero
statistics instead of the five values 5, 2, 2, 1, 21. -/
theorem stats_round_trip_fails_on_colon_name :
    (samplePlayer "A:B").name ≠ "" ∧
    statsLine (samplePlayer "A:B") = "A:B:5:2:2:1:21" ∧
    parseStatsLine (statsLine (samplePlayer "A:B")) = none ∧
    ((Game.mk Deck.new [Player.new "A:B"] Dealer.new).parsePlayerStats
        (statsLine (samplePlayer "A:B"))).players.map
        (fun q => (q.gamesPlayed, q.gamesWon, q.gamesLost, q.gamesPushed, q.maxScore)) =
      [(0, 0, 0, 0, 0)] := by
  decide

/-- C14 (amended): for a participant whose name holds no colon and whose five
statistics are non-negative `int` values, the line `Game::saveStatistics`
writes for it, parsed by `Game::parsePlayerStats` against a roster in which
the first participant of that name is `target`, puts exactly those five values
on `target` (name and hand kept, the rest of the roster untouched) and sets
its `winRate` to the `double` that `gamesWon / gamesPlayed × 100` evaluates to
(quotient and product each rounded to nearest), 0.0 when `gamesPlayed` is 0;
that `double` is the exact percentage up to a relative error of `2^-51`. -/
theorem stats_line_round_trip (p target : Player) (g : Game) (pre post : List Player)
    (hcolon : ':' ∉ p.name.data)
    (h1 : nonNegativeInt p.gamesPlayed) (h2 : nonNegativeInt p.gamesWon)
    (h3 : nonNegativeInt p.gamesLost) (h4 : nonNegativeInt p.gamesPushed)
    (h5 : nonNegativeInt p.maxScore)
    (hroster : g.players = pre ++ target :: post)
    (hpre : ∀ q ∈ pre, q.name ≠ p.name) (hname : target.name = p.name) :
    ∃ loaded : Player,
      (g.parsePlayerStats (statsLine p)).players = pre ++ loaded :: post ∧
      loaded.name = target.name ∧ loaded.hand = target.hand ∧
      loaded.gamesPlayed = p.gamesPlayed ∧ loaded.gamesWon = p.gamesWon ∧
      loaded.gamesLost = p.gamesLost ∧ loaded.gamesPushed = p.gamesPushed ∧
      loaded.maxScore = p.maxScore ∧
      (loaded.winRate =
        if 0 < p.gamesPlayed then winRateExpr p.gamesWon p.gamesPlayed else Double.zero) ∧
      (0 < p.gamesPlayed →
        |loaded.winRate.toRat - (p.gamesWon : ℚ) / (p.gamesPlayed : ℚ) * 100| ≤
          |(p.gamesWon : ℚ) / (p.gamesPlayed : ℚ) * 100| / 2 ^ 51) := by
  obtain ⟨f1, f2, f3, f4, f5, f6, f7, f8⟩ := loadStats_fields target p.gamesPlayed p.gamesWon
    p.gamesLost p.gamesPushed p.maxScore
  refine ⟨target.loadStats p.gamesPlayed p.gamesWon p.gamesLost p.gamesPushed p.maxScore, ?_,
    f1, f2, f3, f4, f5, f6, f7, f8, ?_⟩
  swap
  · intro hpos
    rw [f8, if_pos hpos]
    exact winRateExpr_err _ _ (by omega)
  simp only [Game.parsePlayerStats, parseStatsLine_statsLine p hcolon h1 h2 h3 h4 h5, hroster]
  exact loadFirstMatch_append _ _ _ _ _ _ pre post target hpre hname

/-- Witness for C14: the example of the specification, for the name "Ann" and
a roster of Bob and a fresh Ann: the five values come back and the win rate
is the `double` `5629499534213120 × 2^-47`, which is 40. -/
theorem stats_line_round_trip_witness :
    ∃ loaded : Player,
      ((Game.mk Deck.new [Player.new "Bob", Player.new "Ann"] Dealer.new).parsePlayerStats
          (statsLine (samplePlayer "Ann"))).players = [Player.new "Bob", loaded] ∧
      loaded.gamesPlayed = 5 ∧ loaded.gamesWon = 2 ∧ loaded.gamesLost = 2 ∧
      loaded.gamesPushed = 1 ∧ loaded.maxScore = 21 ∧
      loaded.winRate = ⟨5629499534213120, -47⟩ ∧ loaded.winRate.toRat = 40 := by
  obtain ⟨loaded, h, _, _, e1, e2, e3, e4, e5, e6, _⟩ :=
    stats_line_round_trip (samplePlayer "Ann") (Player.new "Ann")
      (Game.mk Deck.new [Player.new "Bob", Player.new "Ann"] Dealer.new)
      [Player.new "Bob"] [] (by decide) (by decide) (by decide) (by decide) (by decide)
      (by decide) rfl (by decide) rfl
  have e7 : loaded.winRate = ⟨5629499534213120, -47⟩ := by
    rw [e6]
    decide
  refine ⟨loaded, h, e1, e2, e3, e4, e5, e7, ?_⟩
  rw [e7]
  norm_num [Double.toRat]

/-- C20: for a line that parses to a name and five values,
`Game::parsePlayerStats` gives the values to the first participant in roster
order whose name equals that name and leaves every other participant, also a
later one of the same name, as it was; when no participant has the name, and
when the line does not parse, the game is unchanged.  The deck and the dealer
are never touched. -/
theorem parsePlayerStats_first_match (g : Game) (line : String) :
    (∀ (name : String) (gp gw gl gpu ms : Int),
      parseStatsLine line = some (name, gp, gw, gl, gpu, ms) →
      (∀ (pre post : List Player) (target : Player),
        g.players = pre ++ target :: post → (∀ q ∈ pre, q.name ≠ name) → target.name = name →
        (g.parsePlayerStats line).players = pre ++ target.loadStats gp gw gl gpu ms :: post ∧
        (target.loadStats gp gw gl gpu ms).gamesPlayed = gp ∧
        (target.loadStats gp gw gl gpu ms).gamesWon = gw ∧
        (target.loadStats gp gw gl gpu ms).gamesLost = gl ∧
        (target.loadStats gp gw gl gpu ms).gamesPushed = gpu ∧
        (target.loadStats gp gw gl gpu ms).maxScore = ms) ∧
      ((∀ q ∈ g.players, q.name ≠ name) → g.parsePlayerStats line = g)) ∧
    (parseStatsLine line = none → g.parsePlayerStats line = g) ∧
    (g.parsePlayerStats line).deck = g.deck ∧ (g.parsePlayerStats line).dealer = g.dealer := by
  refine ⟨?_, ?_, ?_, ?_⟩
  · intro name gp gw gl gpu ms hparse
    constructor
    · intro pre post target hroster hpre hname
      refine ⟨?_, rfl, rfl, rfl, rfl, rfl⟩
      simp only [Game.parsePlayerStats, hparse, hroster]
      exact loadFirstMatch_append _ _ _ _ _ _ pre post target hpre hname
    · intro hno
      simp only [Game.parsePlayerStats, hparse, loadFirstMatch_no_match _ _ _ _ _ _ _ hno]
  · intro hnone
    simp only [Game.parsePlayerStats, hnone]
  · unfold Game.parsePlayerStats
    split <;> rfl
  · unfold Game.parsePlayerStats
    split <;> rfl

/-- Witness for C20: roster Bob, Ann, Ann and the line of Ann: the first Ann
is loaded, Bob and the second Ann keep their zeros. -/
theorem parsePlayerStats_first_match_witness :
    parseStatsLine "Ann:5:2:2:1:21" = some ("Ann", 5, 2, 2, 1, 21) ∧
    ((Game.mk Deck.new [Player.new "Bob", Player.new "Ann", Player.new "Ann"]
        Dealer.new).parsePlayerStats "Ann:5:2:2:1:21").players =
      [Player.new "Bob", (Player.new "Ann").loadStats 5 2 2 1 21, Player.new "Ann"] :=
  ⟨by decide,
    (((parsePlayerStats_first_match
        (Game.mk Deck.new [Player.new "Bob", Player.new "Ann", Player.new "Ann"] Dealer.new)
        "Ann:5:2:2:1:21").1 "Ann" 5 2 2 1 21 (by decide)).1
      [Player.new "Bob"] [Player.new "Ann"] (Player.new "Ann") rfl (by decide) rfl).1⟩

/-! ### Soft hands and busts -/

theorem hardTotal_eq_nonAce_add_aces (hand : List Card) :
    hardTotal hand = nonAceTotal hand + aceCount hand := by
  induction hand with
  | nil => simp [hardTotal, nonAceTotal, aceCount]
  | cons c cs ih =>
    rw [hardTotal_cons, aceCount_cons, ih]
    by_cases hc : c.isAce = true
    · simp [nonAceTotal, hc, getValue_of_isAce c hc]
      omega
    · simp [nonAceTotal, hc, hardTotal_cons]
      omega

theorem isBusted_iff_hardTotal (p : Player) : p.isBusted = true ↔ 21 < hardTotal p.hand := by
  simp only [Player.isBusted, Player.calculateScore, decide_eq_true_eq, handScore_closed]
  split
  · omega
  · exact Iff.rfl

/-- C21: for a hand with exactly one Ace whose other cards total `s` with
`s ≤ 10`, `Player::calculateScore` returns `s + 11`; Ace with Nine gives 20
and Ace with King gives 21. -/
theorem calculateScore_one_soft_ace (p : Player) (h1 : aceCount p.hand = 1)
    (hs : nonAceTotal p.hand ≤ 10) :
    p.calculateScore = nonAceTotal p.hand + 11 ∧
    (Player.withHand "Ann" [⟨Suit.Spades, Rank.Ace⟩, ⟨Suit.Hearts, Rank.Nine⟩]).calculateScore = 20 ∧
    (Player.withHand "Ann" [⟨Suit.Spades, Rank.Ace⟩, ⟨Suit.Hearts, Rank.King⟩]).calculateScore = 21 := by
  refine ⟨?_, by decide, by decide⟩
  have e := hardTotal_eq_nonAce_add_aces p.hand
  rw [h1] at e
  unfold Player.calculateScore
  rw [handScore_closed, h1]
  have : hardTotal p.hand ≤ 11 := by omega
  simp only [le_refl, this, and_self, if_true]
  omega

/-- Witness for C21: Three, Ace, Four hold one Ace and 7 besides it: 18. -/
theorem calculateScore_one_soft_ace_witness :
    (Player.withHand "Ann"
      [⟨Suit.Clubs, Rank.Three⟩, ⟨Suit.Spades, Rank.Ace⟩, ⟨Suit.Hearts, Rank.Four⟩]).calculateScore =
      7 + 11 :=
  (calculateScore_one_soft_ace
    (Player.withHand "Ann"
      [⟨Suit.Clubs, Rank.Three⟩, ⟨Suit.Spades, Rank.Ace⟩, ⟨Suit.Hearts, Rank.Four⟩])
    (by decide) (by decide)).1

/-- C23: with `h` the total of the hand counting every Ace as 1,
`Player::calculateScore` returns `h + 10` when the hand holds an Ace and
`h ≤ 11`, and `h` otherwise; so the score exceeds `h` by at most 10 however
many Aces there are, and two Aces alone score 12. -/
theorem calculateScore_closed_form (p : Player) :
    p.calculateScore =
      (if 1 ≤ aceCount p.hand ∧ hardTotal p.hand ≤ 11 then hardTotal p.hand + 10
       else hardTotal p.hand) ∧
    (p.calculateScore = hardTotal p.hand ∨ p.calculateScore = hardTotal p.hand + 10) ∧
    (∀ a b : Card, a.isAce = true → b.isAce = true → p.hand = [a, b] → p.calculateScore = 12) := by
  have hc : p.calculateScore =
      (if 1 ≤ aceCount p.hand ∧ hardTotal p.hand ≤ 11 then hardTotal p.hand + 10
       else hardTotal p.hand) := handScore_closed p.hand
  refine ⟨hc, ?_, ?_⟩
  · rw [hc]
    split
    · exact Or.inr rfl
    · exact Or.inl rfl
  · intro a b ha hb hh
    rw [hc, hh]
    simp [aceCount, hardTotal, ha, hb, getValue_of_isAce a ha, getValue_of_isAce b hb]

/-- C24: `Player::isBusted` holds exactly when the total with every Ace
counted as 1 exceeds 21, so a busted hand stays busted when any card is
appended; the score itself can go down: Ace and Nine score 20, and 15 once a
Five is added. -/
theorem isBusted_irreversible (p : Player) (c : Card) :
    (p.isBusted = true ↔ 21 < hardTotal p.hand) ∧
    (p.isBusted = true → Player.isBusted { p with hand := p.hand ++ [c] } = true) ∧
    (Player.withHand "Ann" [⟨Suit.Spades, Rank.Ace⟩, ⟨Suit.Hearts, Rank.Nine⟩]).calculateScore = 20 ∧
    (Player.withHand "Ann"
      [⟨Suit.Spades, Rank.Ace⟩, ⟨Suit.Hearts, Rank.Nine⟩, ⟨Suit.Clubs, Rank.Five⟩]).calculateScore =
      15 := by
  refine ⟨isBusted_iff_hardTotal p, ?_, by decide, by decide⟩
  intro hb
  rw [isBusted_iff_hardTotal] at hb ⊢
  have hv := (getValue_bounds c).1
  simp only [hardTotal_snoc]
  omega

/-- Witness for C24: King, Queen, Five is busted and stays busted with an Ace
added. -/
theorem isBusted_irreversible_witness :
    (Player.withHand "Ann"
      [⟨Suit.Clubs, Rank.King⟩, ⟨Suit.Hearts, Rank.Queen⟩, ⟨Suit.Clubs, Rank.Five⟩]).isBusted = true ∧
    (Player.withHand "Ann"
      [⟨Suit.Clubs, Rank.King⟩, ⟨Suit.Hearts, Rank.Queen⟩, ⟨Suit.Clubs, Rank.Five⟩,
        ⟨Suit.Spades, Rank.Ace⟩]).isBusted = true :=
  ⟨by decide,
    (isBusted_irreversible
      (Player.withHand "Ann"
        [⟨Suit.Clubs, Rank.King⟩, ⟨Suit.Hearts, Rank.Queen⟩, ⟨Suit.Clubs, Rank.Five⟩])
      ⟨Suit.Spades, Rank.Ace⟩).2.1 (by decide)⟩

/-- Witness for C23: the Aces of Spades and Hearts alone score 12. -/
theorem calculateScore_closed_form_witness :
    (Player.withHand "Ann" [⟨Suit.Spades, Rank.Ace⟩, ⟨Suit.Hearts, Rank.Ace⟩]).calculateScore = 12 :=
  (calculateScore_closed_form
    (Player.withHand "Ann" [⟨Suit.Spades, Rank.Ace⟩, ⟨Suit.Hearts, Rank.Ace⟩])).2.2
    ⟨Suit.Spades, Rank.Ace⟩ ⟨Suit.Hearts, Rank.Ace⟩ rfl rfl rfl

/-! ### The statistics ledger -/

theorem ledgerInvariant_new (playerName : String) : ledgerInvariant (Player.new playerName) := by
  simp [ledgerInvariant, Player.new]

theorem ledgerInvariant_apply (call : StatsCall) (p : Player) (h : ledgerInvariant p)
    (hmax : p.gamesPlayed < 2147483647) :
    ledgerInvariant (call.apply p) ∧ (call.apply p).gamesPlayed ≤ p.gamesPlayed + 1 := by
  obtain ⟨h1, h2, h3, h4, h5⟩ := h
  have e0 : wrapInt32 (p.gamesPlayed + 1) = p.gamesPlayed + 1 :=
    wrapInt32_succ _ ⟨by omega, hmax⟩
  have e1 : wrapInt32 (p.gamesWon + 1) = p.gamesWon + 1 := wrapInt32_succ _ ⟨by omega, by omega⟩
  have e2 : wrapInt32 (p.gamesLost + 1) = p.gamesLost + 1 := wrapInt32_succ _ ⟨by omega, by omega⟩
  have e3 : wrapInt32 (p.gamesPushed + 1) = p.gamesPushed + 1 :=
    wrapInt32_succ _ ⟨by omega, by omega⟩
  cases call with
  | recordWin =>
    simp only [StatsCall.apply, Player.recordWin, Player.updateWinRate, e0, e1]
    refine ⟨⟨?_, ?_, h3, h4, rfl⟩, le_refl _⟩
    · dsimp only
      omega
    · dsimp only
      omega
  | recordLoss =>
    simp only [StatsCall.apply, Player.recordLoss, Player.updateWinRate, e0, e2]
    refine ⟨⟨?_, h2, ?_, h4, rfl⟩, le_refl _⟩
    · dsimp only
      omega
    · dsimp only
      omega
  | recordPush =>
    simp only [StatsCall.apply, Player.recordPush, Player.updateWinRate, e0, e3]
    refine ⟨⟨?_, h2, h3, ?_, rfl⟩, le_refl _⟩
    · dsimp only
      omega
    · dsimp only
      omega
  | updateMaxScore score =>
    simp only [StatsCall.apply, Player.updateMaxScore]
    split
    · exact ⟨⟨h1, h2, h3, h4, h5⟩, by simp⟩
    · exact ⟨⟨h1, h2, h3, h4, h5⟩, by simp⟩

theorem ledgerInvariant_applyCalls (calls : List StatsCall) (p : Player) (h : ledgerInvariant p)
    (hmax : p.gamesPlayed + calls.length ≤ 2147483647) :
    ledgerInvariant (applyCalls calls p) ∧
      (applyCalls calls p).gamesPlayed ≤ p.gamesPlayed + calls.length := by
  induction calls generalizing p with
  | nil => exact ⟨h, by simp [applyCalls]⟩
  | cons call rest ih =>
    simp only [List.length_cons, Nat.cast_add, Nat.cast_one] at hmax
    obtain ⟨k1, k2⟩ := ledgerInvariant_apply call p h (by omega)
    obtain ⟨j1, j2⟩ := ih (call.apply p) k1 (by omega)
    refine ⟨j1, ?_⟩
    have e : applyCalls (call :: rest) p = applyCalls rest (call.apply p) := rfl
    rw [e]
    simp only [List.length_cons, Nat.cast_add, Nat.cast_one]
    omega

theorem winRate_bounds_of_ledgerInvariant (p : Player) (h : ledgerInvariant p) :
    0 ≤ p.winRate.toRat ∧ p.winRate.toRat ≤ 100 := by
  obtain ⟨h1, h2, h3, h4, h5⟩ := h
  rw [h5]
  split
  · next hpos => exact winRateExpr_bounds _ _ h2 (by omega) hpos
  · simp [Double.toRat, Double.zero]

theorem wrapInt32_wrapInt32_add (a b : Int) : wrapInt32 (wrapInt32 a + b) = wrapInt32 (a + b) := by
  unfold wrapInt32
  omega

theorem applyCalls_replicate_recordWin (n : Nat) (p : Player)
    (hin : wrapInt32 p.gamesPlayed = p.gamesPlayed) :
    (applyCalls (List.replicate n StatsCall.recordWin) p).gamesPlayed =
      wrapInt32 (p.gamesPlayed + n) := by
  induction n generalizing p with
  | zero =>
    have e : applyCalls (List.replicate 0 StatsCall.recordWin) p = p := rfl
    rw [e, Nat.cast_zero, add_zero, hin]
  | succ n ih =>
    have e : applyCalls (List.replicate (n + 1) StatsCall.recordWin) p =
        applyCalls (List.replicate n StatsCall.recordWin) p.recordWin := rfl
    have e2 : p.recordWin.gamesPlayed = wrapInt32 (p.gamesPlayed + 1) := rfl
    have e3 : wrapInt32 p.recordWin.gamesPlayed = p.recordWin.gamesPlayed := by
      rw [e2]
      unfold wrapInt32
      omega
    rw [e, ih p.recordWin e3, e2, wrapInt32_wrapInt32_add]
    congr 1
    push_cast
    ring

/-- C26 as stated fails: `INT_MAX + 1 = 2147483648` calls of `recordWin` on a
participant created with zero statistics leave the `int` counters
`gamesPlayed` and `gamesWon` at `INT_MIN`, which is negative. -/
theorem ledger_breaks_after_int_max_calls :
    (applyCalls (List.replicate 2147483648 StatsCall.recordWin) (Player.new "Ann")).gamesPlayed =
      -2147483648 := by
  rw [applyCalls_replicate_recordWin _ _ (by decide)]
  decide

/-- C26 (amended): for a participant created with zero statistics, after any
sequence of at most `INT_MAX = 2147483647` calls of `recordWin`, `recordLoss`,
`recordPush` and `updateMaxScore`, `gamesPlayed = gamesWon + gamesLost +
gamesPushed`, the four counters are not negative and the `double` `winRate`
lies between 0 and 100; no counter exceeds the number of calls. -/
theorem statistics_ledger_invariant (playerName : String) (calls : List StatsCall)
    (hlen : calls.length ≤ 2147483647) :
    (applyCalls calls (Player.new playerName)).gamesPlayed =
      (applyCalls calls (Player.new playerName)).gamesWon +
        (applyCalls calls (Player.new playerName)).gamesLost +
        (applyCalls calls (Player.new playerName)).gamesPushed ∧
    0 ≤ (applyCalls calls (Player.new playerName)).gamesPlayed ∧
    0 ≤ (applyCalls calls (Player.new playerName)).gamesWon ∧
    0 ≤ (applyCalls calls (Player.new playerName)).gamesLost ∧
    0 ≤ (applyCalls calls (Player.new playerName)).gamesPushed ∧
    0 ≤ (applyCalls calls (Player.new playerName)).winRate.toRat ∧
    (applyCalls calls (Player.new playerName)).winRate.toRat ≤ 100 ∧
    (applyCalls calls (Player.new playerName)).gamesPlayed ≤ calls.length := by
  have hzero : (Player.new playerName).gamesPlayed = 0 := rfl
  obtain ⟨hinv, hlen1⟩ :=
    ledgerInvariant_applyCalls calls (Player.new playerName) (ledgerInvariant_new playerName)
      (by rw [hzero]; omega)
  obtain ⟨hw0, hw1⟩ := winRate_bounds_of_ledgerInvariant _ hinv
  obtain ⟨h1, h2, h3, h4, _⟩ := hinv
  rw [hzero] at hlen1
  exact ⟨h1, by omega, h2, h3, h4, hw0, hw1, by omega⟩

/-- Witness for C26: a win, a loss, a best score of 21 and a push. -/
theorem statistics_ledger_invariant_witness :
    (applyCalls [StatsCall.recordWin, StatsCall.recordLoss, StatsCall.updateMaxScore 21,
        StatsCall.recordPush] (Player.new "Ann")).gamesPlayed = 3 ∧
    0 ≤ (applyCalls [StatsCall.recordWin, StatsCall.recordLoss, StatsCall.updateMaxScore 21,
        StatsCall.recordPush] (Player.new "Ann")).winRate.toRat ∧
    (applyCalls [StatsCall.recordWin, StatsCall.recordLoss, StatsCall.updateMaxScore 21,
        StatsCall.recordPush] (Player.new "Ann")).winRate.toRat ≤ 100 :=
  ⟨by decide,
    (statistics_ledger_invariant "Ann" [StatsCall.recordWin, StatsCall.recordLoss,
      StatsCall.updateMaxScore 21, StatsCall.recordPush] (by decide)).2.2.2.2.2.1,
    (statistics_ledger_invariant "Ann" [StatsCall.recordWin, StatsCall.recordLoss,
      StatsCall.updateMaxScore 21, StatsCall.recordPush] (by decide)).2.2.2.2.2.2.1⟩

/-! ### Conservation of the cards -/

theorem takeCard_cases (p : Player) (deck : Deck) :
    (deck.cards = [] ∧ p.takeCard deck = (Except.error GameError.deckEmpty, p, deck)) ∨
    (∃ rest c, deck = ⟨rest ++ [c]⟩ ∧
      p.takeCard deck = (Except.ok (), { p with hand := p.hand ++ [c] }, ⟨rest⟩)) := by
  rcases deck with ⟨cards⟩
  by_cases hne : cards = []
  · subst hne
    exact Or.inl ⟨rfl, rfl⟩
  · obtain ⟨rest, c, rfl⟩ := exists_append_of_ne_nil cards hne
    exact Or.inr ⟨rest, c, rfl, takeCard_append p rest c⟩

theorem takeCard_count (p : Player) (deck : Deck) (r : Except GameError Unit) (p1 : Player)
    (deck1 : Deck) (h : p.takeCard deck = (r, p1, deck1)) (c : Card) :
    p1.hand.count c + deck1.cards.count c = p.hand.count c + deck.cards.count c := by
  rcases takeCard_cases p deck with ⟨_, h0⟩ | ⟨rest, c0, hd, h0⟩
  · rw [h0] at h
    simp only [Prod.mk.injEq] at h
    obtain ⟨_, e1, e2⟩ := h
    rw [← e1, ← e2]
  · rw [h0] at h
    simp only [Prod.mk.injEq] at h
    obtain ⟨_, e1, e2⟩ := h
    rw [← e1, ← e2, hd]
    simp only [List.count_append]
    omega

theorem takeCard_length (p : Player) (deck : Deck) (r : Except GameError Unit) (p1 : Player)
    (deck1 : Deck) (h : p.takeCard deck = (r, p1, deck1)) :
    p1.hand.length + deck1.cards.length = p.hand.length + deck.cards.length := by
  rcases takeCard_cases p deck with ⟨_, h0⟩ | ⟨rest, c0, hd, h0⟩
  · rw [h0] at h
    simp only [Prod.mk.injEq] at h
    obtain ⟨_, e1, e2⟩ := h
    rw [← e1, ← e2]
  · rw [h0] at h
    simp only [Prod.mk.injEq] at h
    obtain ⟨_, e1, e2⟩ := h
    rw [← e1, ← e2, hd]
    simp only [List.length_append, List.length_singleton]
    omega

/-- The dealer loop keeps every card, however it ends: what left the deck is
in the dealer's hand. -/
theorem dealerLoop_count (fuel : Nat) (d : Dealer) (deck : Deck) (r : Except GameError Unit)
    (d1 : Dealer) (deck1 : Deck) (h : dealerLoop fuel d deck = some (r, d1, deck1)) :
    (∀ c : Card, deck1.cards.count c + d1.hand.count c = deck.cards.count c + d.hand.count c) ∧
    deck1.cards.length + d1.hand.length = deck.cards.length + d.hand.length := by
  induction fuel generalizing d deck with
  | zero => simp [dealerLoop] at h
  | succ fuel ih =>
    by_cases hc : (d.mustDrawCard && !d.isBusted) = true
    · rcases ht : d.toPlayer.takeCard deck with ⟨r1, p1, deck2⟩
      have hcount := fun c => takeCard_count _ _ _ _ _ ht c
      have hlen := takeCard_length _ _ _ _ _ ht
      cases r1 with
      | error e =>
        simp only [dealerLoop, hc, if_true, Dealer.takeCard, ht, Option.some.injEq,
          Prod.mk.injEq] at h
        obtain ⟨_, e1, e2⟩ := h
        rw [← e1, ← e2]
        exact ⟨fun c => by have := hcount c; simp only at this ⊢; omega, by simp only at hlen ⊢; omega⟩
      | ok u =>
        simp only [dealerLoop, hc, if_true, Dealer.takeCard, ht] at h
        obtain ⟨k1, k2⟩ := ih _ _ h
        exact ⟨fun c => by have := hcount c; have := k1 c; simp only at *; omega,
          by simp only at *; omega⟩
    · have hc0 : (d.mustDrawCard && !d.isBusted) = false := by simpa using hc
      rw [dealerLoop_stop fuel d deck hc0] at h
      simp only [Option.some.injEq, Prod.mk.injEq] at h
      obtain ⟨_, e1, e2⟩ := h
      rw [← e1, ← e2]
      exact ⟨fun _ => rfl, rfl⟩

theorem mustDrawCard_false_of_busted (d : Dealer) (h : d.isBusted = true) :
    d.mustDrawCard = false := by
  simp [Dealer.mustDrawCard, h]

theorem dealer_guard_redundant (d : Dealer) :
    (d.mustDrawCard && !d.isBusted) = d.mustDrawCard := by
  cases hb : d.isBusted
  · simp
  · simp [mustDrawCard_false_of_busted d hb]

theorem playTurnLoop_eq_dealerLoop (fuel : Nat) (d : Dealer) (deck : Deck) :
    playTurnLoop fuel d deck = dealerLoop fuel d deck := by
  induction fuel generalizing d deck with
  | zero => rfl
  | succ fuel ih =>
    simp only [playTurnLoop, dealerLoop]
    split
    · split
      · rfl
      · exact ih _ _
    · rfl

theorem drawWhileMust_eq_dealerLoop (fuel : Nat) (d : Dealer) (deck : Deck) :
    drawWhileMust fuel d deck = dealerLoop fuel d deck := by
  induction fuel generalizing d deck with
  | zero => rfl
  | succ fuel ih =>
    simp only [drawWhileMust, dealerLoop, dealer_guard_redundant]
    split
    · split
      · rfl
      · exact ih _ _
    · rfl

/-- C25: `Dealer::playTurn` and the loop of `Game::dealerTurn` agree for every
strategy, dealer hand and deck: both end, with the same outcome (normal end,
or the error of the exhausted deck), the same dealer hand and the same deck,
hence after the same number of draws; `mustDrawCard()` is false for a busted
dealer, so the loop without the guard `!isBusted()` does the same as each. -/
theorem playTurn_agrees_with_dealerTurn (g : Game) :
    (∃ r d1 deck1,
      g.dealer.playTurn g.deck = some (r, d1, deck1) ∧
      g.dealerTurn = some (r, { g with dealer := d1, deck := deck1 }) ∧
      d1.hand.length + deck1.cards.length = g.dealer.hand.length + g.deck.cards.length) ∧
    (∀ (fuel : Nat) (d : Dealer) (deck : Deck), playTurnLoop fuel d deck = dealerLoop fuel d deck) ∧
    (∀ d : Dealer, d.isBusted = true → d.mustDrawCard = false) ∧
    (∀ (fuel : Nat) (d : Dealer) (deck : Deck),
      drawWhileMust fuel d deck = dealerLoop fuel d deck ∧
      drawWhileMust fuel d deck = playTurnLoop fuel d deck) := by
  refine ⟨?_, playTurnLoop_eq_dealerLoop, mustDrawCard_false_of_busted, ?_⟩
  · obtain ⟨r, d1, deck1, _, h2, _, _⟩ :=
      dealerLoop_spec (g.deck.cards.length + 1) g.dealer g.deck (by omega)
    refine ⟨r, d1, deck1, ?_, ?_, ?_⟩
    · simp only [Dealer.playTurn, playTurnLoop_eq_dealerLoop, h2]
    · simp only [Game.dealerTurn, h2]
    · have := (dealerLoop_count _ _ _ _ _ _ h2).2
      omega
  · intro fuel d deck
    exact ⟨drawWhileMust_eq_dealerLoop fuel d deck,
      by rw [drawWhileMust_eq_dealerLoop, playTurnLoop_eq_dealerLoop]⟩

/-- Witness for C25: a Standard dealer holding Ten and Six on a fresh deck:
both functions end with the same outcome, dealer and deck. -/
theorem playTurn_agrees_with_dealerTurn_witness :
    ∃ r d1 deck1,
      Dealer.playTurn { Dealer.new with hand := [⟨Suit.Clubs, Rank.Ten⟩, ⟨Suit.Hearts, Rank.Six⟩] }
          Deck.new = some (r, d1, deck1) ∧
      (Game.mk Deck.new []
          { Dealer.new with hand := [⟨Suit.Clubs, Rank.Ten⟩, ⟨Suit.Hearts, Rank.Six⟩] }).dealerTurn =
        some (r, Game.mk deck1 [] d1) := by
  obtain ⟨r, d1, deck1, h1, h2, _⟩ := (playTurn_agrees_with_dealerTurn
    (Game.mk Deck.new []
      { Dealer.new with hand := [⟨Suit.Clubs, Rank.Ten⟩, ⟨Suit.Hearts, Rank.Six⟩] })).1
  exact ⟨r, d1, deck1, h1, h2⟩

end Blackjack
